import Mathlib

/-!
# demo_store: a file-backed product store

A shallow embedding of `src/demo_store/main.go`.  Every HTTP handler of the
program becomes a function from the state of the filesystem and the decoded
request to the response (status code and payload) and, for the handlers that
write, the new state of the filesystem.

What lies outside the program is modelled as follows.

* The filesystem (`os.ReadFile`, `os.WriteFile`, `os.Remove`, `filepath.Walk`)
  is a finite table of regular files with their contents, a list of existing
  directories and a list of paths the operating system refuses to modify.
  A path is resolved the way the operating system resolves it when there are
  no links: empty pieces and `.` are skipped, `..` goes up, and every piece on
  the way must be an existing directory. Letter case is significant.
* `encoding/json` is a pair of functions, `JSON.MarshalIndent` and
  `JSON.Unmarshal`; the only property ever assumed of them is `JSON.Faithful`:
  the text of a JSON array of marshalled records decodes to those records.
* `time.Now().UnixNano()` is a stream of clock readings, one for each call.
* The data path `os.Args[1]` is a parameter of every handler, and the body of a
  request arrives decoded: a body that cannot be decoded is answered with 400
  before any of the code below runs.
-/

namespace DemoStore

deriving instance DecidableEq for Except

/-! ## Data model (`main.go`, lines 47-66) -/

/-- An option (variant) of a product. -/
structure Options where
  Sku : String
  ID : String
deriving DecidableEq, Repr

/-- An image of a product. -/
structure Image where
  Url : String
  ID : String
deriving DecidableEq, Repr

/-- A product record. -/
structure Product where
  Name : String
  ID : String
  Options : List Options
  Images : List Image
deriving DecidableEq, Repr

/-- The payload handed to `Response`: a list of products, a message, or `nil`. -/
inductive Data where
  | products (ps : List Product)
  | text (msg : String)
  | null
deriving DecidableEq, Repr

/-- The outcome of a handler: what it passes to `Response`. -/
structure Response where
  statusCode : Nat
  data : Data
deriving DecidableEq, Repr

/-- The value of `http.StatusAccepted`. -/
def StatusAccepted : Nat := 202

/-- The value of `http.StatusBadRequest`. -/
def StatusBadRequest : Nat := 400

/-! ## Strings (`strings.Contains`, `strings.HasSuffix`, `strconv`) -/

/-- Substring test on character lists: `sub` occurs in `s` as a contiguous block. -/
def containsChars : List Char → List Char → Bool
  | [], sub => sub.isEmpty
  | c :: s, sub => sub.isPrefixOf (c :: s) || containsChars s sub

/-- The function `strings.Contains`. -/
def Contains (s substr : String) : Bool := containsChars s.data substr.data

/-- The function `strings.HasSuffix`. -/
def HasSuffix (s suffix : String) : Bool := suffix.data.isSuffixOf s.data

/-- The function `strconv.Itoa`: the decimal text of an integer. -/
def Itoa (n : Int) : String := toString n

/-- Value of a run of decimal digits, `none` when a character is not a digit. -/
def parseDigits : List Char → Nat → Option Nat
  | [], acc => some acc
  | c :: cs, acc =>
    if c.isDigit then parseDigits cs (acc * 10 + (c.toNat - 48)) else none

/-- The function `strconv.Atoi` for a 64-bit `int`: an optional sign followed by
at least one decimal digit, the value within the range of `int`. -/
def Atoi (s : String) : Option Int :=
  match s.data with
  | [] => none
  | '-' :: ds =>
    if ds = [] then none
    else (parseDigits ds 0).bind fun n => if n ≤ 2 ^ 63 then some (-(n : Int)) else none
  | '+' :: ds =>
    if ds = [] then none
    else (parseDigits ds 0).bind fun n => if n < 2 ^ 63 then some (n : Int) else none
  | ds => (parseDigits ds 0).bind fun n => if n < 2 ^ 63 then some (n : Int) else none

/-! ## The filesystem -/

/-- The state of the filesystem. -/
structure FS where
  /-- The directories that exist, each under its resolved path. -/
  dirs : List String
  /-- The regular files, resolved path and contents, in the order a directory walk
  visits them. -/
  files : List (String × String)
  /-- The paths the operating system refuses to write to or to remove. -/
  readOnly : List String
deriving DecidableEq, Repr

/-- No path is listed twice among the regular files. -/
def FS.WF (fs : FS) : Prop := (fs.files.map Prod.fst).Nodup

instance (fs : FS) : Decidable fs.WF := by unfold FS.WF; infer_instance

/-- The pieces of a path between its separators `/`. -/
def splitPath : List Char → List (List Char)
  | [] => [[]]
  | c :: cs =>
    if c = '/' then [] :: splitPath cs
    else
      match splitPath cs with
      | [] => [[c]]
      | piece :: pieces => (c :: piece) :: pieces

/-- Whether a path starts at the root directory. -/
def isRooted (path : String) : Bool := path.data.head? = some '/'

/-- The path made of the given pieces: `.` or `/` when there is none. -/
def joinPath (rooted : Bool) (pieces : List (List Char)) : String :=
  match pieces with
  | [] => if rooted then "/" else "."
  | _ => ⟨(if rooted then ['/'] else []) ++ List.intercalate ['/'] pieces⟩

/-- Path resolution as the operating system does it in the absence of links, with
`stack` the pieces of the directory reached so far: an empty piece and `.` stay there,
`..` goes to the directory above, and any other piece but the last one must name an
existing directory. The error is the path that is no directory. -/
def resolveFrom (dirs : List String) (rooted : Bool) :
    List (List Char) → List (List Char) → Except String (List (List Char))
  | stack, [] => .ok stack
  | stack, piece :: rest =>
    if piece = [] ∨ piece = ['.'] then resolveFrom dirs rooted stack rest
    else if piece = ['.', '.'] then
      if stack = [] then resolveFrom dirs rooted (if rooted then [] else [piece]) rest
      else if stack.getLast? = some ['.', '.'] then
        resolveFrom dirs rooted (stack ++ [piece]) rest
      else resolveFrom dirs rooted stack.dropLast rest
    else if rest = [] then .ok (stack ++ [piece])
    else if joinPath rooted (stack ++ [piece]) ∈ dirs then
      resolveFrom dirs rooted (stack ++ [piece]) rest
    else .error (joinPath rooted (stack ++ [piece]))

/-- The pieces of the resolved path of `name`; the empty name resolves to nothing. -/
def resolvePieces (dirs : List String) (name : String) : Except String (List (List Char)) :=
  if name = "" then .error name
  else resolveFrom dirs (isRooted name) [] (splitPath name.data)

/-- The resolved path of `name`: the path under which the state lists what `name` names. -/
def resolve (dirs : List String) (name : String) : Except String String :=
  match resolvePieces dirs name with
  | .ok pieces => .ok (joinPath (isRooted name) pieces)
  | .error dir => .error dir

/-- Every regular file is listed under its resolved path. -/
def FS.Canonical (fs : FS) : Prop :=
  ∀ path ∈ fs.files.map Prod.fst, resolve fs.dirs path = .ok path

instance (fs : FS) : Decidable fs.Canonical := by unfold FS.Canonical; infer_instance

/-- What path resolution has checked of the pieces of a path: no piece is empty, `.`
or holds a separator, a piece `..` stands only at the front of a path that does not
start at the root, and every other piece names an existing directory, the last piece
too when `lastToo` is set. -/
def Verified (dirs : List String) (rooted lastToo : Bool) (pieces : List (List Char)) : Prop :=
  (∀ p ∈ pieces, p ≠ [] ∧ p ≠ ['.'] ∧ '/' ∉ p) ∧
  (∀ pre p post, pieces = pre ++ p :: post → p = ['.', '.'] →
    rooted = false ∧ ∀ q ∈ pre, q = ['.', '.']) ∧
  (∀ pre p post, pieces = pre ++ p :: post → p ≠ ['.', '.'] → (post ≠ [] ∨ lastToo = true) →
    joinPath rooted (pre ++ [p]) ∈ dirs)

/-- The message of a path error: the path `dir` on the way to `name` is no directory. -/
def pathError (fs : FS) (op name dir : String) : String :=
  op ++ " " ++ name ++
    (if dir ∈ fs.files.map Prod.fst then ": not a directory" else ": no such file or directory")

/-- The order in which a directory walk visits two paths: piece by piece, the names of
a directory in ascending order. -/
def walkLE (a b : String × String) : Prop := splitPath a.1.data ≤ splitPath b.1.data

instance : DecidableRel walkLE := fun a b => by unfold walkLE; infer_instance

/-- The function `os.ReadFile`: the contents of a regular file, `none` for an error. -/
def ReadFile (fs : FS) (name : String) : Option String :=
  match resolve fs.dirs name with
  | .ok key => (fs.files.find? fun e => e.1 = key).map Prod.snd
  | .error _ => none

/-- The function `os.WriteFile`: create the file or replace its contents. -/
def WriteFile (fs : FS) (name data : String) : Except String FS :=
  match resolvePieces fs.dirs name with
  | .error dir => .error (pathError fs "open" name dir)
  | .ok pieces =>
    let key := joinPath (isRooted name) pieces
    if pieces = [] ∨ pieces.getLast? = some ['.', '.'] ∨ key ∈ fs.dirs then
      .error ("open " ++ name ++ ": is a directory")
    else if key ∈ fs.readOnly then .error ("open " ++ name ++ ": permission denied")
    else if key ∈ fs.files.map Prod.fst then
      .ok { fs with files := fs.files.map fun e => if e.1 = key then (key, data) else e }
    else .ok { fs with files := fs.files.orderedInsert walkLE (key, data) }

/-- The function `os.Remove`, on a path reported by the directory walk, which is the
path under which the file is listed. -/
def Remove (fs : FS) (name : String) : Except String FS :=
  if name ∉ fs.files.map Prod.fst then .error ("remove " ++ name ++ ": no such file or directory")
  else if name ∈ fs.readOnly then .error ("remove " ++ name ++ ": permission denied")
  else .ok { fs with files := fs.files.filter fun e => e.1 ≠ name }

/-- The pieces of a resolved path. -/
def keyPieces (path : String) : List (List Char) :=
  (splitPath path.data).filter fun piece => piece ≠ []

/-- Whether the resolved path `path` lies below the directory with the given pieces. -/
def isBelow (rooted : Bool) (dir : List (List Char)) (path : String) : Bool :=
  (isRooted path == rooted) && dir.isPrefixOf (keyPieces path) &&
    match (keyPieces path).drop dir.length with
    | [] => false
    | piece :: _ => piece != ['.', '.']

/-- The regular files below the directory with the given pieces, in walk order. -/
def filesBelow (fs : FS) (rooted : Bool) (dir : List (List Char)) : List String :=
  (fs.files.map Prod.fst).filter fun path => isBelow rooted dir path

/-- The call `filepath.Walk(dataPath, fn)` of the handlers, whose `fn` returns the
error it is given and otherwise collects the paths of the regular files that end
in `.json`: the paths collected, or the error of a root that cannot be listed.
The walk reports every file under its resolved path. The data path names a
directory, or nothing at all. -/
def Walk (fs : FS) (dataPath : String) : Except String (List String) :=
  match resolvePieces fs.dirs dataPath with
  | .error dir => .error (pathError fs "lstat" dataPath dir)
  | .ok pieces =>
    if pieces = [] ∨ joinPath (isRooted dataPath) pieces ∈ fs.dirs then
      .ok ((filesBelow fs (isRooted dataPath) pieces).filter fun path => HasSuffix path ".json")
    else .error ("lstat " ++ dataPath ++ ": no such file or directory")

/-- The path of the file of a record: `fmt.Sprintf("%s/%s.json", dataPath, id)`. -/
def filePath (dataPath id : String) : String := dataPath ++ "/" ++ id ++ ".json"

/-! ## Validation (`main.go`, lines 68-88) -/

/-- The method `(*Product).Validate`; `.ok ()` is a `nil` error. -/
def Product.Validate (p : Product) : Except String Unit :=
  if p.Name = "" then .error "product Name is required"
  else if p.Options.length = 0 then .error "product must have at least one option"
  else .ok ()

/-- The method `(*Products).Validate`: the error of the first record that has one. -/
def Products.Validate : List Product → Except String Unit
  | [] => .ok ()
  | product :: rest =>
    match product.Validate with
    | .error err => .error err
    | .ok () => Products.Validate rest

/-! ## The JSON library -/

/-- The two functions of `encoding/json` the handlers call on records. -/
structure JSON where
  /-- The call `json.MarshalIndent(product, "", "    ")`; it has no error on a record of strings. -/
  MarshalIndent : Product → String
  /-- The call `json.Unmarshal(text, &products)` into an empty `Products`. -/
  Unmarshal : String → Except String (List Product)

/-- The texts `a`, `a,b`, `a,b,c`, ...: the items separated by commas. -/
def commaSep : List String → String
  | [] => ""
  | [a] => a
  | a :: b :: rest => a ++ "," ++ commaSep (b :: rest)

/-- What is assumed of the JSON library: the text of an array of marshalled
records decodes to these records. -/
def JSON.Faithful (J : JSON) : Prop :=
  ∀ ps : List Product, J.Unmarshal ("[" ++ commaSep (ps.map J.MarshalIndent) ++ "]") = .ok ps

/-! ## PutProducts (`main.go`, lines 90-141) -/

/-- The loop of lines 115-119 from clock reading `k` on: every option without an id gets
the reading of the clock at that moment. Returns the options and the next clock index. -/
def assignOptionIDs (now : Nat → Int) : List Options → Nat → List Options × Nat
  | [], k => ([], k)
  | o :: rest, k =>
    if o.ID = "" then
      let r := assignOptionIDs now rest (k + 1)
      ({ o with ID := Itoa (now k) } :: r.1, r.2)
    else
      let r := assignOptionIDs now rest k
      (o :: r.1, r.2)

/-- The loop of lines 121-125, for the images. -/
def assignImageIDs (now : Nat → Int) : List Image → Nat → List Image × Nat
  | [], k => ([], k)
  | im :: rest, k =>
    if im.ID = "" then
      let r := assignImageIDs now rest (k + 1)
      ({ im with ID := Itoa (now k) } :: r.1, r.2)
    else
      let r := assignImageIDs now rest k
      (im :: r.1, r.2)

/-- Lines 110-125: the ids of one record, of its options and of its images, in this order. -/
def assignIDs (now : Nat → Int) (p : Product) (k : Nat) : Product × Nat :=
  let id := if p.ID = "" then Itoa (now k) else p.ID
  let k1 := if p.ID = "" then k + 1 else k
  let os := assignOptionIDs now p.Options k1
  let ims := assignImageIDs now p.Images os.2
  ({ Name := p.Name, ID := id, Options := os.1, Images := ims.1 }, ims.2)

/-- The loop of lines 109-138 over the records still to write: `done` are the records
already written, `k` the number of clock readings taken so far. Returns the filesystem
and either the message of the write that failed or all the records with their ids. -/
def putLoop (J : JSON) (dataPath : String) (now : Nat → Int) :
    List Product → Nat → FS → List Product → FS × Except String (List Product)
  | [], _, fs, done => (fs, .ok done)
  | p :: rest, k, fs, done =>
    let r := assignIDs now p k
    match WriteFile fs (filePath dataPath r.1.ID) (J.MarshalIndent r.1) with
    | .error err => (fs, .error err)
    | .ok fs1 => putLoop J dataPath now rest r.2 fs1 (done ++ [r.1])

/-- The handler `PutProducts` on a decoded request body. -/
def PutProducts (J : JSON) (dataPath : String) (now : Nat → Int) (fs : FS)
    (products : List Product) : FS × Response :=
  match Products.Validate products with
  | .error err => (fs, ⟨StatusBadRequest, .text err⟩)
  | .ok () =>
    match putLoop J dataPath now products 0 fs [] with
    | (fs1, .error err) => (fs1, ⟨StatusBadRequest, .text err⟩)
    | (fs1, .ok written) => (fs1, ⟨StatusAccepted, .products written⟩)

/-! ## GetProducts (`main.go`, lines 143-188) -/

/-- The loop of lines 163-175: `n` is `len(getProducts)`, `i` the index of the next id and
`buf` the buffer. Returns the buffer, or the message for the first file that cannot be read. -/
def getLoop (fs : FS) (dataPath : String) (n : Nat) : List String → Nat → String → Except String String
  | [], _, buf => .ok buf
  | id :: rest, i, buf =>
    match ReadFile fs (filePath dataPath id) with
    | none => .error ("unable to read file: " ++ id ++ ".json")
    | some b =>
      let buf1 := buf ++ b
      getLoop fs dataPath n rest (i + 1) (if i < n - 1 then buf1 ++ "," else buf1)

/-- The handler `GetProducts` on a decoded request body. The empty list of ids it answers
with when there is no id is encoded as the empty JSON array, like an empty list of products. -/
def GetProducts (J : JSON) (dataPath : String) (fs : FS) (getProducts : List String) : Response :=
  if getProducts.length < 1 then ⟨StatusAccepted, .products []⟩
  else
    match getLoop fs dataPath getProducts.length getProducts 0 "[" with
    | .error msg => ⟨StatusBadRequest, .text msg⟩
    | .ok buf =>
      match J.Unmarshal (buf ++ "]") with
      | .error err => ⟨StatusAccepted, .text err⟩
      | .ok products => ⟨StatusAccepted, .products products⟩

/-! ## GetProductsPage (`main.go`, lines 190-274) -/

/-- The function `sort.Strings`: ascending order of the strings, character by character. -/
def sortStrings (files : List String) : List String :=
  files.insertionSort fun a b => a.data ≤ b.data

/-- The loop of lines 239-244 from index `i` on: one past the index of the first path
that contains `cpc`, and `0` when there is none. -/
def scanOffset (cpc : String) : List String → Nat → Nat
  | [], _ => 0
  | file :: rest, i => if Contains file cpc then i + 1 else scanOffset cpc rest (i + 1)

/-- The loop of lines 247-262: `n` iterations are left before `i` reaches `limit`, and
the `break` of line 249 is the case of a listing with no path at `offset + i`. -/
def pageLoop (fs : FS) (files : List String) (offset : Nat) (limit : Int) :
    Nat → Nat → String → Except String String
  | 0, _, buf => .ok buf
  | n + 1, i, buf =>
    match files[offset + i]? with
    | none => .ok buf
    | some path =>
      match ReadFile fs path with
      | none => .error ("unable to read file: " ++ path)
      | some b =>
        let buf1 := buf ++ b
        pageLoop fs files offset limit n (i + 1)
          (if (i : Int) + 1 < limit ∧ offset + i + 1 < files.length then buf1 ++ "," else buf1)

/-- The handler `GetProductsPage` on the query parameters `channel_product_code` and
`limit` (empty when the URL has none). -/
def GetProductsPage (J : JSON) (dataPath : String) (fs : FS)
    (channel_product_code limitParam : String) : Response :=
  let cpc := if channel_product_code = "" then "0" else channel_product_code
  let l := if limitParam = "" then "10" else limitParam
  match Atoi l with
  | none => ⟨StatusBadRequest, .text "invalid limit"⟩
  | some limit =>
    match Walk fs dataPath with
    | .error err => ⟨StatusBadRequest, .text err⟩
    | .ok walked =>
      let files := sortStrings walked
      if limit = 0 then ⟨StatusAccepted, .products []⟩
      else
        let offset := if cpc ≠ "0" then scanOffset cpc files 0 else 0
        match pageLoop fs files offset limit limit.toNat 0 "[" with
        | .error msg => ⟨StatusBadRequest, .text msg⟩
        | .ok buf =>
          match J.Unmarshal (buf ++ "]") with
          | .error err => ⟨StatusAccepted, .text err⟩
          | .ok products => ⟨StatusAccepted, .products products⟩

/-! ## DeleteProducts and CleanupDataDir (`main.go`, lines 276-359) -/

/-- The inner loop of lines 314-322 for one id: remove every listed file whose path
contains the id, stopping at the first removal that fails. -/
def removeMatching (id : String) : List String → FS → FS × Option String
  | [], fs => (fs, none)
  | file :: rest, fs =>
    if Contains file id then
      match Remove fs file with
      | .error err => (fs, some err)
      | .ok fs1 => removeMatching id rest fs1
    else removeMatching id rest fs

/-- The outer loop of lines 313-323 over the ids. -/
def deleteLoop (files : List String) : List String → FS → FS × Option String
  | [], fs => (fs, none)
  | id :: rest, fs =>
    match removeMatching id files fs with
    | (fs1, some err) => (fs1, some err)
    | (fs1, none) => deleteLoop files rest fs1

/-- The handler `DeleteProducts` on a decoded request body. -/
def DeleteProducts (dataPath : String) (fs : FS) (ids : List String) : FS × Response :=
  if ids.length < 1 then (fs, ⟨StatusAccepted, .null⟩)
  else
    match Walk fs dataPath with
    | .error err => (fs, ⟨StatusBadRequest, .text err⟩)
    | .ok files =>
      match deleteLoop files ids fs with
      | (fs1, some err) => (fs1, ⟨StatusBadRequest, .text err⟩)
      | (fs1, none) => (fs1, ⟨StatusAccepted, .null⟩)

/-- The loop of lines 350-356: remove the listed files, stopping at the first failure. -/
def removeAll : List String → FS → FS × Option String
  | [], fs => (fs, none)
  | file :: rest, fs =>
    match Remove fs file with
    | .error err => (fs, some err)
    | .ok fs1 => removeAll rest fs1

/-- The handler `CleanupDataDir`. -/
def CleanupDataDir (dataPath : String) (fs : FS) : FS × Response :=
  match Walk fs dataPath with
  | .error err => (fs, ⟨StatusBadRequest, .text err⟩)
  | .ok files =>
    match removeAll files fs with
    | (fs1, some err) => (fs1, ⟨StatusBadRequest, .text err⟩)
    | (fs1, none) => (fs1, ⟨StatusAccepted, .null⟩)

/-! ## A JSON codec

A concrete instance of the library interface: records are written as compact JSON
text and read back by a reader of exactly that form. -/

namespace Codec

/-- The body of a JSON string literal: `"` and `\` are preceded by `\`. -/
def escape : List Char → List Char
  | [] => []
  | c :: s => if c = '"' ∨ c = '\\' then '\\' :: c :: escape s else c :: escape s

/-- A JSON string literal. -/
def encString (s : String) : List Char := '"' :: (escape s.data ++ ['"'])

/-- Reads the body of a string literal up to its closing quote; `escaped` tells that
the character before was a `\`. -/
def unescape : Bool → List Char → Option (List Char × List Char)
  | _, [] => none
  | true, c :: rest => (unescape false rest).map fun r => (c :: r.1, r.2)
  | false, c :: rest =>
    if c = '"' then some ([], rest)
    else if c = '\\' then unescape true rest
    else (unescape false rest).map fun r => (c :: r.1, r.2)

/-- Reads a string literal. -/
def decString : List Char → Option (String × List Char)
  | [] => none
  | c :: rest => if c = '"' then (unescape false rest).map fun r => (⟨r.1⟩, r.2) else none

/-- Reads the given text. -/
def expect (lit : String) (s : List Char) : Option (List Char) :=
  if lit.data.isPrefixOf s then some (s.drop lit.data.length) else none

/-- The rest of an array after an item: `]`, or `,` and a further item. -/
def encTail {α : Type} (enc : α → List Char) : List α → List Char
  | [] => [']']
  | a :: rest => ',' :: (enc a ++ encTail enc rest)

/-- A JSON array. -/
def encArray {α : Type} (enc : α → List Char) : List α → List Char
  | [] => ['[', ']']
  | a :: rest => '[' :: (enc a ++ encTail enc rest)

/-- Reads the rest of an array after an item. -/
def decTail {α : Type} (dec : List Char → Option (α × List Char)) :
    Nat → List Char → Option (List α × List Char)
  | 0, _ => none
  | _ + 1, [] => none
  | n + 1, c :: rest =>
    if c = ']' then some ([], rest)
    else if c = ',' then
      (dec rest).bind fun a => (decTail dec n a.2).map fun r => (a.1 :: r.1, r.2)
    else none

/-- Reads an array of at most `fuel` items. -/
def decArray {α : Type} (dec : List Char → Option (α × List Char)) (fuel : Nat) :
    List Char → Option (List α × List Char)
  | [] => none
  | c :: rest =>
    if c = '[' then
      match rest with
      | [] => none
      | d :: rest1 =>
        if d = ']' then some ([], rest1)
        else (dec rest).bind fun a => (decTail dec fuel a.2).map fun r => (a.1 :: r.1, r.2)
    else none

/-- An option as JSON text. -/
def encOptions (o : Options) : List Char :=
  "\x7b\"sku\":".data ++ encString o.Sku ++ ",\"id\":".data ++ encString o.ID ++ ['}']

/-- Reads an option. -/
def decOptions (s : List Char) : Option (Options × List Char) :=
  (expect "\x7b\"sku\":" s).bind fun s1 => (decString s1).bind fun sku =>
  (expect ",\"id\":" sku.2).bind fun s2 => (decString s2).bind fun id =>
  (expect "\x7d" id.2).map fun s3 => (⟨sku.1, id.1⟩, s3)

/-- An image as JSON text. -/
def encImage (im : Image) : List Char :=
  "\x7b\"url\":".data ++ encString im.Url ++ ",\"id\":".data ++ encString im.ID ++ ['}']

/-- Reads an image. -/
def decImage (s : List Char) : Option (Image × List Char) :=
  (expect "\x7b\"url\":" s).bind fun s1 => (decString s1).bind fun url =>
  (expect ",\"id\":" url.2).bind fun s2 => (decString s2).bind fun id =>
  (expect "\x7d" id.2).map fun s3 => (⟨url.1, id.1⟩, s3)

/-- A record as JSON text. -/
def encProduct (p : Product) : List Char :=
  "\x7b\"name\":".data ++ encString p.Name ++ ",\"id\":".data ++ encString p.ID ++
    ",\"options\":".data ++ encArray encOptions p.Options ++
    ",\"images\":".data ++ encArray encImage p.Images ++ ['}']

/-- Reads a record whose arrays have at most `fuel` items. -/
def decProduct (fuel : Nat) (s : List Char) : Option (Product × List Char) :=
  (expect "\x7b\"name\":" s).bind fun s1 => (decString s1).bind fun name =>
  (expect ",\"id\":" name.2).bind fun s2 => (decString s2).bind fun id =>
  (expect ",\"options\":" id.2).bind fun s3 => (decArray decOptions fuel s3).bind fun os =>
  (expect ",\"images\":" os.2).bind fun s4 => (decArray decImage fuel s4).bind fun ims =>
  (expect "\x7d" ims.2).map fun s5 => (⟨name.1, id.1, os.1, ims.1⟩, s5)

/-- Reads an array of records that fills the whole text. -/
def decProducts (s : List Char) : Except String (List Product) :=
  match decArray (decProduct s.length) s.length s with
  | some (ps, []) => .ok ps
  | _ => .error "invalid character in JSON text"

end Codec

/-- The codec: compact JSON text for a record, and the reader of arrays of such texts. -/
def compactJSON : JSON where
  MarshalIndent p := ⟨Codec.encProduct p⟩
  Unmarshal s := Codec.decProducts s.data

/-! ## Vocabulary of the properties -/

/-- What `PutProducts` promises of an id: the new one is not empty, and it is the old
one when the old one was not empty. -/
def idAssigned (old new : String) : Prop := new ≠ "" ∧ (old ≠ "" → new = old)

/-- The record `r` is the record `p` with its ids filled in: the same name, the same
options and images in the same order with the same skus and urls. -/
def Populated (p r : Product) : Prop :=
  r.Name = p.Name ∧ idAssigned p.ID r.ID ∧
  List.Forall₂ (fun o o1 : Options => o1.Sku = o.Sku ∧ idAssigned o.ID o1.ID) p.Options r.Options ∧
  List.Forall₂ (fun i i1 : Image => i1.Url = i.Url ∧ idAssigned i.ID i1.ID) p.Images r.Images

/-- Every regular file holds the marshalled text of a record: the state of a store
that only this program writes to. -/
def HoldsRecords (J : JSON) (fs : FS) : Prop :=
  ∀ e ∈ fs.files, ∃ p : Product, e.2 = J.MarshalIndent p

/-- The offset of a page in the words of the specification: `0` when the cursor is
absent (empty, or the sentinel `0`) or when no path of the listing contains it, and
otherwise one past the index of the first path that contains it. -/
def pageOffset (listing : List String) (cursor : String) : Nat :=
  if cursor = "" ∨ cursor = "0" ∨ (listing.any fun path => Contains path cursor) = false then 0
  else listing.findIdx (fun path => Contains path cursor) + 1

/-- The pages a client collects with at most `fuel` requests: it asks for a page, and
as long as the page has a record it asks again with the id of the last record of the
page as the cursor and the same limit. -/
def collectPages (J : JSON) (dataPath : String) (fs : FS) (limitParam : String) :
    Nat → String → List (List Product)
  | 0, _ => []
  | fuel + 1, cursor =>
    match (GetProductsPage J dataPath fs cursor limitParam).data with
    | .products page =>
      match page.getLast? with
      | none => []
      | some last => page :: collectPages J dataPath fs limitParam fuel last.ID
    | _ => []

/-- Every record of the listing can serve as a cursor: its id is neither empty nor the
sentinel `0`, its own path contains the id and no earlier path of the listing does. -/
def CursorSafe (listing : List String) (recordOf : String → Product) : Prop :=
  ∀ pre path post, listing = pre ++ path :: post →
    (recordOf path).ID ≠ "" ∧ (recordOf path).ID ≠ "0" ∧
    Contains path (recordOf path).ID = true ∧
    ∀ q ∈ pre, Contains q (recordOf path).ID = false

/-- The record files of the data directory, as the handlers list them; none when the
directory cannot be listed. -/
def recordFiles (fs : FS) (dataPath : String) : List String :=
  match Walk fs dataPath with
  | .ok files => files
  | .error _ => []

/-- No listed path contains two entries of the list of ids. -/
def NoDoubleMatch (files ids : List String) : Prop :=
  ids.Pairwise fun a b => ∀ path ∈ files, ¬ (Contains path a = true ∧ Contains path b = true)

instance (files ids : List String) : Decidable (NoDoubleMatch files ids) := by
  unfold NoDoubleMatch; infer_instance

/-- A check of `CursorSafe` on the part `rest` of a listing that follows `pre`. -/
def cursorSafeFrom (recordOf : String → Product) : List String → List String → Bool
  | _, [] => true
  | pre, path :: post =>
    decide ((recordOf path).ID ≠ "") && decide ((recordOf path).ID ≠ "0") &&
      Contains path (recordOf path).ID &&
      pre.all (fun q => !Contains q (recordOf path).ID) &&
      cursorSafeFrom recordOf (pre ++ [path]) post

/-! ## Sample states and requests -/

/-- A clock that reads 100, 101, 102, ... -/
def sampleClock (k : Nat) : Int := 100 + k

/-- An empty data directory `data`. -/
def emptyStore : FS := ⟨["data"], [], []⟩

/-- A record without ids. -/
def shirt : Product := ⟨"shirt", "", [⟨"S", ""⟩, ⟨"M", "7"⟩], [⟨"front.png", ""⟩]⟩

/-- The record `shirt` after `PutProducts` under `sampleClock`. -/
def shirtStored : Product :=
  ⟨"shirt", "100", [⟨"S", "101"⟩, ⟨"M", "7"⟩], [⟨"front.png", "102"⟩]⟩

/-- The data directory that holds `shirtStored` and nothing else. -/
def shirtStore : FS :=
  ⟨["data"], [("data/100.json", compactJSON.MarshalIndent shirtStored)], []⟩

/-- Two records that carry the same id. -/
def twins : List Product := [⟨"first", "1", [⟨"S", "2"⟩], []⟩, ⟨"second", "1", [⟨"S", "3"⟩], []⟩]

/-- The data directory after the records `twins` are put into `emptyStore`. -/
def twinStore : FS :=
  ⟨["data"], [("data/1.json", compactJSON.MarshalIndent ⟨"second", "1", [⟨"S", "3"⟩], []⟩)], []⟩

/-- Two records whose ids differ and name the same file. -/
def aliases : List Product :=
  [⟨"first", "x", [⟨"S", "2"⟩], []⟩, ⟨"second", "./x", [⟨"S", "3"⟩], []⟩]

/-- The data directory after the records `aliases` are put into `emptyStore`. -/
def aliasStore : FS :=
  ⟨["data"], [("data/x.json", compactJSON.MarshalIndent ⟨"second", "./x", [⟨"S", "3"⟩], []⟩)], []⟩

/-- A filesystem in which the data directory does not exist. -/
def noStore : FS := ⟨[], [], []⟩

/-- A record with the given id. -/
def item (id : String) : Product := ⟨"item", id, [⟨"S", "1"⟩], []⟩

/-- The record a path of the sample stores holds. -/
def sampleRecordOf (path : String) : Product :=
  item ⟨(path.data.drop 5).take (path.data.length - 10)⟩

/-- The data directory that holds `shirtStored` and the record `7`. -/
def pairStore : FS :=
  ⟨["data"], [("data/100.json", compactJSON.MarshalIndent shirtStored),
    ("data/7.json", compactJSON.MarshalIndent (item "7"))], []⟩

/-- The data directory with the records `100`, `101` and `102`. -/
def threeStore : FS :=
  ⟨["data"], [("data/100.json", compactJSON.MarshalIndent (item "100")),
    ("data/101.json", compactJSON.MarshalIndent (item "101")),
    ("data/102.json", compactJSON.MarshalIndent (item "102"))], []⟩

/-- The data directory with the records `12` and `2`. -/
def overlapStore : FS :=
  ⟨["data"], [("data/12.json", compactJSON.MarshalIndent (item "12")),
    ("data/2.json", compactJSON.MarshalIndent (item "2"))], []⟩

/-- The data directory with the records `1`, `12` and `3`. -/
def prefixStore : FS :=
  ⟨["data"], [("data/1.json", compactJSON.MarshalIndent (item "1")),
    ("data/12.json", compactJSON.MarshalIndent (item "12")),
    ("data/3.json", compactJSON.MarshalIndent (item "3"))], []⟩

/-- A record with no name. -/
def nameless : Product := ⟨"", "9", [⟨"S", "1"⟩], []⟩

/-! ## The codec is faithful -/

namespace Codec

theorem unescape_escape (s rest : List Char) :
    unescape false (escape s ++ '"' :: rest) = some (s, rest) := by
  induction s with
  | nil => simp [escape, unescape]
  | cons c s ih =>
    by_cases h1 : c = '"'
    · subst h1
      simp [escape, unescape, ih]
    · by_cases h2 : c = '\\'
      · subst h2
        simp [escape, unescape, ih]
      · simp [escape, unescape, ih, h1, h2]

theorem decString_encString (s : String) (rest : List Char) :
    decString (encString s ++ rest) = some (s, rest) := by
  simp [decString, encString, unescape_escape]

theorem expect_append (lit : String) (rest : List Char) :
    expect lit (lit.data ++ rest) = some rest := by
  have h : lit.data.isPrefixOf (lit.data ++ rest) = true :=
    List.isPrefixOf_iff_prefix.2 (List.prefix_append _ _)
  simp [expect, h]

theorem decTail_encTail {α : Type} (enc : α → List Char)
    (dec : List Char → Option (α × List Char)) (xs : List α)
    (hdec : ∀ a ∈ xs, ∀ rest, dec (enc a ++ rest) = some (a, rest)) :
    ∀ (fuel : Nat) (rest : List Char), xs.length < fuel →
      decTail dec fuel (encTail enc xs ++ rest) = some (xs, rest) := by
  induction xs with
  | nil =>
    intro fuel rest hf
    cases fuel with
    | zero => omega
    | succ n => simp [encTail, decTail]
  | cons a xs ih =>
    intro fuel rest hf
    cases fuel with
    | zero => omega
    | succ n =>
      have hn : xs.length < n := by simpa using hf
      have ha := hdec a (List.mem_cons_self _ _)
      have ih1 := ih (fun b hb => hdec b (List.mem_cons_of_mem _ hb)) n rest hn
      simp [encTail, decTail, List.append_assoc, ha, ih1]

theorem decArray_encArray {α : Type} (enc : α → List Char)
    (dec : List Char → Option (α × List Char)) (xs : List α)
    (hdec : ∀ a ∈ xs, ∀ rest, dec (enc a ++ rest) = some (a, rest))
    (hopen : ∀ a ∈ xs, ∃ t, enc a = '{' :: t)
    (fuel : Nat) (rest : List Char) (hf : xs.length < fuel) :
    decArray dec fuel (encArray enc xs ++ rest) = some (xs, rest) := by
  cases xs with
  | nil => simp [encArray, decArray]
  | cons a xs =>
    have ha := hdec a (List.mem_cons_self _ _)
    obtain ⟨t, ht⟩ := hopen a (List.mem_cons_self _ _)
    have hn : xs.length < fuel := by
      have : (a :: xs).length = xs.length + 1 := rfl
      omega
    have h1 := decTail_encTail enc dec xs (fun b hb => hdec b (List.mem_cons_of_mem _ hb))
      fuel rest hn
    have h2 : dec ('{' :: (t ++ (encTail enc xs ++ rest))) = some (a, encTail enc xs ++ rest) := by
      have := ha (encTail enc xs ++ rest)
      rwa [ht] at this
    simp [encArray, decArray, List.append_assoc, ht, h2, h1]

theorem decOptions_encOptions (o : Options) (rest : List Char) :
    decOptions (encOptions o ++ rest) = some (o, rest) := by
  have e1 := expect_append "\x7b\"sku\":"
  have e2 := expect_append ",\"id\":"
  have e3 := expect_append "\x7d"
  simp only [decOptions, encOptions, List.append_assoc, e1, e2, decString_encString,
    Option.bind_eq_bind, Option.some_bind]
  have e4 : expect "\x7d" (['}'] ++ rest) = some rest := e3 rest
  rw [e4]; rfl

theorem decImage_encImage (im : Image) (rest : List Char) :
    decImage (encImage im ++ rest) = some (im, rest) := by
  have e1 := expect_append "\x7b\"url\":"
  have e2 := expect_append ",\"id\":"
  have e3 := expect_append "\x7d"
  simp only [decImage, encImage, List.append_assoc, e1, e2, decString_encString,
    Option.bind_eq_bind, Option.some_bind]
  have e4 : expect "\x7d" (['}'] ++ rest) = some rest := e3 rest
  rw [e4]; rfl

theorem decProduct_encProduct (p : Product) (fuel : Nat) (rest : List Char)
    (ho : p.Options.length < fuel) (hi : p.Images.length < fuel) :
    decProduct fuel (encProduct p ++ rest) = some (p, rest) := by
  have e1 := expect_append "\x7b\"name\":"
  have e2 := expect_append ",\"id\":"
  have e3 := expect_append ",\"options\":"
  have e4 := expect_append ",\"images\":"
  have e5 : expect "\x7d" ('}' :: rest) = some rest := expect_append "\x7d" rest
  have a1 := fun r => decArray_encArray encOptions decOptions p.Options
    (fun a _ r => decOptions_encOptions a r) (fun a _ => ⟨_, rfl⟩) fuel r ho
  have a2 := fun r => decArray_encArray encImage decImage p.Images
    (fun a _ r => decImage_encImage a r) (fun a _ => ⟨_, rfl⟩) fuel r hi
  simp only [decProduct, encProduct, List.append_assoc, e1, e2, e3, e4, decString_encString,
    Option.bind_eq_bind, Option.some_bind, a1, a2]
  simp [e5]

theorem length_encTail {α : Type} (enc : α → List Char) (xs : List α) :
    xs.length < (encTail enc xs).length ∧
      ∀ a ∈ xs, (enc a).length ≤ (encTail enc xs).length := by
  induction xs with
  | nil => simp [encTail]
  | cons b xs ih =>
    refine ⟨by simp [encTail]; omega, ?_⟩
    intro a ha
    rcases List.mem_cons.1 ha with h | h
    · subst h
      simp [encTail]; omega
    · have := ih.2 a h
      simp [encTail]; omega

theorem length_encArray {α : Type} (enc : α → List Char) (xs : List α) :
    xs.length < (encArray enc xs).length ∧
      ∀ a ∈ xs, (enc a).length ≤ (encArray enc xs).length := by
  cases xs with
  | nil => simp [encArray]
  | cons b xs =>
    have h := length_encTail enc xs
    refine ⟨by simp [encArray]; omega, ?_⟩
    intro a ha
    rcases List.mem_cons.1 ha with h1 | h1
    · subst h1
      simp [encArray]; omega
    · have := h.2 a h1
      simp [encArray]; omega

theorem length_encProduct (p : Product) :
    p.Options.length < (encProduct p).length ∧ p.Images.length < (encProduct p).length := by
  have h1 := (length_encArray encOptions p.Options).1
  have h2 := (length_encArray encImage p.Images).1
  constructor <;> (simp [encProduct]; omega)

theorem data_commaSep (a : Product) (rest : List Product) :
    (commaSep ((a :: rest).map compactJSON.MarshalIndent)).data ++ [']'] =
      encProduct a ++ encTail encProduct rest := by
  induction rest generalizing a with
  | nil => simp [commaSep, encTail, compactJSON]
  | cons b rest ih =>
    have h := ih b
    simp only [List.map] at h ⊢
    simp only [commaSep, String.data_append, encTail, List.append_assoc, h]
    rfl

theorem data_array (ps : List Product) :
    ("[" ++ commaSep (ps.map compactJSON.MarshalIndent) ++ "]").data = encArray encProduct ps := by
  cases ps with
  | nil => rfl
  | cons a rest =>
    have h := data_commaSep a rest
    simp only [String.data_append, encArray, List.append_assoc]
    rw [h]
    rfl

end Codec

/-- The codec `compactJSON` has the property assumed of the JSON library. -/
theorem compactJSON_faithful : compactJSON.Faithful := by
  intro ps
  show Codec.decProducts _ = _
  rw [Codec.data_array]
  have hlen := Codec.length_encArray Codec.encProduct ps
  have hdec : ∀ a ∈ ps, ∀ rest, Codec.decProduct (Codec.encArray Codec.encProduct ps).length
      (Codec.encProduct a ++ rest) = some (a, rest) := by
    intro a ha rest
    have h1 := Codec.length_encProduct a
    have h2 := hlen.2 a ha
    exact Codec.decProduct_encProduct a _ rest (by omega) (by omega)
  have h := Codec.decArray_encArray Codec.encProduct
    (Codec.decProduct (Codec.encArray Codec.encProduct ps).length) ps hdec
    (fun a _ => ⟨_, rfl⟩) (Codec.encArray Codec.encProduct ps).length [] hlen.1
  rw [List.append_nil] at h
  simp [Codec.decProducts, h]

/-! ## Validation -/

theorem Products.Validate_append_error (pre post : List Product) (p : Product) (err : String)
    (hpre : ∀ q ∈ pre, q.Validate = .ok ()) (hp : p.Validate = .error err) :
    Products.Validate (pre ++ p :: post) = .error err := by
  induction pre with
  | nil => simp [Products.Validate, hp]
  | cons q pre ih =>
    have hq := hpre q (List.mem_cons_self _ _)
    simp only [List.cons_append, Products.Validate, hq]
    exact ih fun r hr => hpre r (List.mem_cons_of_mem _ hr)

/-- C8: `Product.Validate` accepts a record exactly when its name and its list
of options are both non-empty; an empty name is reported as the name error whatever
the options are, an empty list of options under a non-empty name as the option error;
and two records with the same name whose option lists are both empty or both
non-empty get the same outcome, whatever their ids, images and options contain. -/
theorem validate_spec (p : Product) :
    (p.Validate = .ok () ↔ p.Name ≠ "" ∧ p.Options ≠ []) ∧
    (p.Name = "" → p.Validate = .error "product Name is required") ∧
    (p.Name ≠ "" → p.Options = [] →
      p.Validate = .error "product must have at least one option") ∧
    (∀ q : Product, q.Name = p.Name → (q.Options = [] ↔ p.Options = []) →
      q.Validate = p.Validate) := by
  refine ⟨?_, ?_, ?_, ?_⟩
  · unfold Product.Validate
    by_cases h1 : p.Name = "" <;> by_cases h2 : p.Options = [] <;> simp [h1, h2]
  · intro h
    simp [Product.Validate, h]
  · intro h1 h2
    simp [Product.Validate, h1, h2]
  · intro q hn ho
    unfold Product.Validate
    rw [hn]
    by_cases h1 : p.Name = ""
    · simp [h1]
    · by_cases h2 : p.Options = []
      · simp [h1, h2, ho.2 h2]
      · have h3 : q.Options ≠ [] := fun h => h2 (ho.1 h)
        simp [h1, h2, h3]

/-- Witness of C8 at the records `nameless` and `shirt`. -/
theorem validate_spec_witness :
    nameless.Validate = .error "product Name is required" ∧ shirt.Validate = .ok () :=
  ⟨(validate_spec nameless).2.1 rfl, (validate_spec shirt).1.2 ⟨by decide, by decide⟩⟩

theorem Products.exists_first_invalid (batch : List Product)
    (h : ∃ q ∈ batch, q.Validate ≠ .ok ()) :
    ∃ pre p post err, batch = pre ++ p :: post ∧ (∀ q ∈ pre, q.Validate = .ok ()) ∧
      p.Validate = .error err := by
  induction batch with
  | nil => simp at h
  | cons x batch ih =>
    cases hx : x.Validate with
    | error err => exact ⟨[], x, batch, err, rfl, by simp, hx⟩
    | ok u =>
      obtain ⟨q, hq, hne⟩ := h
      rcases List.mem_cons.1 hq with h1 | h1
      · subst h1
        exact absurd hx hne
      · obtain ⟨pre, p, post, err, hsplit, hpre, hp⟩ := ih ⟨q, h1, hne⟩
        refine ⟨x :: pre, p, post, err, by simp [hsplit], ?_, hp⟩
        intro r hr
        rcases List.mem_cons.1 hr with h2 | h2
        · subst h2
          exact hx
        · exact hpre r h2

theorem PutProducts_invalid (J : JSON) (dataPath : String) (now : Nat → Int)
    (fs : FS) (pre post : List Product) (p : Product) (err : String)
    (hpre : ∀ q ∈ pre, q.Validate = .ok ()) (hp : p.Validate = .error err) :
    PutProducts J dataPath now fs (pre ++ p :: post) = (fs, ⟨StatusBadRequest, .text err⟩) := by
  simp [PutProducts, Products.Validate_append_error pre post p err hpre hp]

/-- C10: when some record of the batch fails validation, at any position,
the batch has a first such record, and `PutProducts` answers 400 with the validation
error of that record and leaves the filesystem as it was: no file is written, not even
for the valid records before it. -/
theorem put_invalid_batch_writes_nothing (J : JSON) (dataPath : String) (now : Nat → Int)
    (fs : FS) (batch : List Product) (h : ∃ q ∈ batch, q.Validate ≠ .ok ()) :
    ∃ pre p post err, batch = pre ++ p :: post ∧ (∀ q ∈ pre, q.Validate = .ok ()) ∧
      p.Validate = .error err ∧
      PutProducts J dataPath now fs batch = (fs, ⟨StatusBadRequest, .text err⟩) := by
  obtain ⟨pre, p, post, err, hsplit, hpre, hp⟩ := Products.exists_first_invalid batch h
  refine ⟨pre, p, post, err, hsplit, hpre, hp, ?_⟩
  rw [hsplit]
  exact PutProducts_invalid J dataPath now fs pre post p err hpre hp

/-- Witness of C10: a valid record, a record with no name and a valid record, put
into an empty data directory. -/
theorem put_invalid_batch_writes_nothing_witness :
    ∃ pre p post err, [shirt, nameless, shirt] = pre ++ p :: post ∧
      (∀ q ∈ pre, q.Validate = .ok ()) ∧ p.Validate = .error err ∧
      PutProducts compactJSON "data" sampleClock emptyStore [shirt, nameless, shirt] =
        (emptyStore, ⟨StatusBadRequest, .text err⟩) :=
  put_invalid_batch_writes_nothing compactJSON "data" sampleClock emptyStore
    [shirt, nameless, shirt] ⟨nameless, by decide, by decide⟩

/-! ## The ids assigned by PutProducts -/

theorem toDigitsCore_ne_nil (b : Nat) :
    ∀ (fuel n : Nat) (ds : List Char), ds ≠ [] ∨ 0 < fuel → Nat.toDigitsCore b fuel n ds ≠ [] := by
  intro fuel
  induction fuel with
  | zero =>
    intro n ds h
    rcases h with h | h
    · simpa [Nat.toDigitsCore] using h
    · omega
  | succ f ih =>
    intro n ds _
    simp only [Nat.toDigitsCore]
    split
    · simp
    · exact ih _ _ (Or.inl (by simp))

theorem Nat.repr_ne_empty (n : Nat) : Nat.repr n ≠ "" := by
  intro h
  have h1 : (Nat.repr n).data = [] := by rw [h]
  exact toDigitsCore_ne_nil 10 (n + 1) n [] (Or.inr (Nat.succ_pos n)) h1

theorem Itoa_ne_empty (n : Int) : Itoa n ≠ "" := by
  cases n with
  | ofNat m => exact Nat.repr_ne_empty m
  | negSucc m =>
    intro h
    have h1 : (Itoa (Int.negSucc m)).data = [] := by rw [h]
    have h2 : (Itoa (Int.negSucc m)).data = '-' :: (Nat.repr (m + 1)).data := rfl
    rw [h2] at h1
    exact List.cons_ne_nil _ _ h1

theorem idAssigned_fresh (n : Int) : idAssigned "" (Itoa n) :=
  ⟨Itoa_ne_empty n, fun h => absurd rfl h⟩

theorem idAssigned_kept (id : String) (h : id ≠ "") : idAssigned id id :=
  ⟨h, fun _ => rfl⟩

theorem assignOptionIDs_spec (now : Nat → Int) (os : List Options) :
    ∀ k, List.Forall₂ (fun o o1 : Options => o1.Sku = o.Sku ∧ idAssigned o.ID o1.ID)
      os (assignOptionIDs now os k).1 := by
  induction os with
  | nil => intro k; simp [assignOptionIDs]
  | cons o os ih =>
    intro k
    by_cases h : o.ID = ""
    · simp only [assignOptionIDs, h, if_true]
      exact List.Forall₂.cons ⟨rfl, by rw [h]; exact idAssigned_fresh _⟩ (ih _)
    · simp only [assignOptionIDs, h, if_false]
      exact List.Forall₂.cons ⟨rfl, idAssigned_kept _ h⟩ (ih _)

theorem assignImageIDs_spec (now : Nat → Int) (ims : List Image) :
    ∀ k, List.Forall₂ (fun i i1 : Image => i1.Url = i.Url ∧ idAssigned i.ID i1.ID)
      ims (assignImageIDs now ims k).1 := by
  induction ims with
  | nil => intro k; simp [assignImageIDs]
  | cons im ims ih =>
    intro k
    by_cases h : im.ID = ""
    · simp only [assignImageIDs, h, if_true]
      exact List.Forall₂.cons ⟨rfl, by rw [h]; exact idAssigned_fresh _⟩ (ih _)
    · simp only [assignImageIDs, h, if_false]
      exact List.Forall₂.cons ⟨rfl, idAssigned_kept _ h⟩ (ih _)

theorem assignIDs_spec (now : Nat → Int) (p : Product) (k : Nat) :
    Populated p (assignIDs now p k).1 := by
  refine ⟨rfl, ?_, assignOptionIDs_spec now p.Options _, assignImageIDs_spec now p.Images _⟩
  by_cases h : p.ID = ""
  · simp only [assignIDs, h, if_true]
    exact idAssigned_fresh _
  · simp only [assignIDs, h, if_false]
    exact idAssigned_kept _ h

theorem putLoop_populated (J : JSON) (dataPath : String) (now : Nat → Int)
    (batch : List Product) :
    ∀ (k : Nat) (fs : FS) (done : List Product) (fs1 : FS) (R : List Product),
      putLoop J dataPath now batch k fs done = (fs1, .ok R) →
      ∃ R1, R = done ++ R1 ∧ List.Forall₂ Populated batch R1 := by
  induction batch with
  | nil =>
    intro k fs done fs1 R h
    simp only [putLoop, Prod.mk.injEq, Except.ok.injEq] at h
    exact ⟨[], by simp [h.2], List.Forall₂.nil⟩
  | cons p batch ih =>
    intro k fs done fs1 R h
    simp only [putLoop] at h
    split at h
    · simp at h
    · obtain ⟨R1, hR, hpop⟩ := ih _ _ _ _ _ h
      exact ⟨(assignIDs now p k).1 :: R1, by simp [hR],
        List.Forall₂.cons (assignIDs_spec now p k) hpop⟩

theorem PutProducts_accepted (J : JSON) (dataPath : String) (now : Nat → Int) (fs fs1 : FS)
    (batch R : List Product)
    (h : PutProducts J dataPath now fs batch = (fs1, ⟨StatusAccepted, .products R⟩)) :
    Products.Validate batch = .ok () ∧ putLoop J dataPath now batch 0 fs [] = (fs1, .ok R) := by
  unfold PutProducts at h
  split at h
  · simp [StatusAccepted, StatusBadRequest] at h
  · split at h
    · simp [StatusAccepted, StatusBadRequest] at h
    · rename_i heq
      simp only [Prod.mk.injEq, Response.mk.injEq, Data.products.injEq, true_and] at h
      refine ⟨by assumption, ?_⟩
      rw [heq, h.1, h.2]

/-- C5: in the records a successful `PutProducts` returns, every record, option
and image has a non-empty id, every id that was not empty in the request is unchanged,
and the names, skus, urls and the number and order of the records, of their options and
of their images are those of the request. -/
theorem put_assigns_ids (J : JSON) (dataPath : String) (now : Nat → Int) (fs fs1 : FS)
    (batch R : List Product)
    (h : PutProducts J dataPath now fs batch = (fs1, ⟨StatusAccepted, .products R⟩)) :
    List.Forall₂ Populated batch R := by
  obtain ⟨R1, hR, hpop⟩ := putLoop_populated J dataPath now batch 0 fs [] fs1 R
    (PutProducts_accepted J dataPath now fs fs1 batch R h).2
  simpa [hR] using hpop

/-- Witness of C5: the record `shirt` is stored in an empty data directory. -/
theorem put_assigns_ids_witness :
    PutProducts compactJSON "data" sampleClock emptyStore [shirt] =
      (shirtStore, ⟨StatusAccepted, .products [shirtStored]⟩) ∧
    List.Forall₂ Populated [shirt] [shirtStored] :=
  ⟨by decide, put_assigns_ids compactJSON "data" sampleClock emptyStore shirtStore [shirt]
    [shirtStored] (by decide)⟩

/-! ## Path resolution

The resolved path of a path resolves to itself. -/

theorem splitPath_ne_nil (cs : List Char) : splitPath cs ≠ [] := by
  cases cs with
  | nil => simp [splitPath]
  | cons c cs =>
    simp only [splitPath]
    split
    · simp
    · split <;> simp

theorem splitPath_no_slash (cs : List Char) : ∀ piece ∈ splitPath cs, '/' ∉ piece := by
  induction cs with
  | nil => simp [splitPath]
  | cons c cs ih =>
    intro piece hp
    simp only [splitPath] at hp
    split at hp
    · rcases List.mem_cons.1 hp with h | h
      · simp [h]
      · exact ih piece h
    · rename_i hc
      split at hp
      · simp only [List.mem_singleton] at hp
        simp [hp, Ne.symm hc]
      · rename_i p ps heq
        rcases List.mem_cons.1 hp with h | h
        · subst h
          have := ih p (by rw [heq]; simp)
          simp [Ne.symm hc, this]
        · exact ih piece (by rw [heq]; simp [h])

theorem splitPath_piece (p : List Char) (h : '/' ∉ p) : splitPath p = [p] := by
  induction p with
  | nil => rfl
  | cons c p ih =>
    have hc : c ≠ '/' := fun e => h (by simp [e])
    have hp : '/' ∉ p := fun e => h (by simp [e])
    simp [splitPath, hc, ih hp]

theorem splitPath_append (p : List Char) (h : '/' ∉ p) (rest : List Char) :
    splitPath (p ++ '/' :: rest) = p :: splitPath rest := by
  induction p with
  | nil => simp [splitPath]
  | cons c p ih =>
    have hc : c ≠ '/' := fun e => h (by simp [e])
    have hp : '/' ∉ p := fun e => h (by simp [e])
    simp [splitPath, hc, ih hp]

theorem splitPath_intercalate (pieces : List (List Char)) (hne : pieces ≠ [])
    (h : ∀ piece ∈ pieces, '/' ∉ piece) :
    splitPath (List.intercalate ['/'] pieces) = pieces := by
  induction pieces with
  | nil => exact absurd rfl hne
  | cons p ps ih =>
    cases ps with
    | nil =>
      simp [List.intercalate, List.intersperse]
      exact splitPath_piece p (h p (by simp))
    | cons q qs =>
      have := ih (by simp) (fun x hx => h x (by simp at hx ⊢; exact Or.inr hx))
      simp only [List.intercalate, List.intersperse, List.flatten_cons] at this ⊢
      rw [List.singleton_append, splitPath_append p (h p (by simp)), this]

theorem nil_or_snoc {α : Type} (l : List α) : l = [] ∨ ∃ init a, l = init ++ [a] := by
  rcases List.eq_nil_or_concat l with h | ⟨init, a, h⟩
  · exact Or.inl h
  · exact Or.inr ⟨init, a, by rw [h, List.concat_eq_append]⟩

theorem split_concat {α : Type} (l pre post : List α) (a p : α)
    (h : l ++ [a] = pre ++ p :: post) :
    (post = [] ∧ pre = l ∧ p = a) ∨ ∃ post1, post = post1 ++ [a] ∧ l = pre ++ p :: post1 := by
  rcases nil_or_snoc post with hp | ⟨post1, b, hp⟩
  · subst hp
    have : l ++ [a] = (pre) ++ [p] := h
    have h1 := List.append_inj' this rfl
    simp only [List.cons.injEq, and_true] at h1
    exact Or.inl ⟨rfl, h1.1.symm, h1.2.symm⟩
  · subst hp
    have : l ++ [a] = (pre ++ p :: post1) ++ [b] := by simpa using h
    have h1 := List.append_inj' this rfl
    simp only [List.cons.injEq, and_true] at h1
    exact Or.inr ⟨post1, by rw [h1.2], h1.1⟩

theorem Verified.push (dirs : List String) (rooted : Bool) (stack : List (List Char))
    (piece : List Char) (h : Verified dirs rooted true stack)
    (h1 : piece ≠ []) (h2 : piece ≠ ['.']) (h3 : '/' ∉ piece) (h4 : piece ≠ ['.', '.'])
    (lastToo : Bool) (hdir : lastToo = true → joinPath rooted (stack ++ [piece]) ∈ dirs) :
    Verified dirs rooted lastToo (stack ++ [piece]) := by
  obtain ⟨ha, hb, hc⟩ := h
  refine ⟨?_, ?_, ?_⟩
  · intro p hp
    rcases List.mem_append.1 hp with h | h
    · exact ha p h
    · simp only [List.mem_singleton] at h
      subst h
      exact ⟨h1, h2, h3⟩
  · intro pre p post hsplit hp
    rcases split_concat stack pre post piece p hsplit with ⟨_, _, h⟩ | ⟨post1, _, h⟩
    · exact absurd (h ▸ hp) h4
    · exact hb pre p post1 h hp
  · intro pre p post hsplit hp hpost
    rcases split_concat stack pre post piece p hsplit with ⟨h5, h6, h7⟩ | ⟨post1, _, h⟩
    · subst h5 h6 h7
      rcases hpost with h | h
      · exact absurd rfl h
      · exact hdir h
    · exact hc pre p post1 h hp (Or.inr rfl)

theorem Verified.pushUp (dirs : List String) (stack : List (List Char))
    (h : Verified dirs false true stack) (hall : ∀ q ∈ stack, q = ['.', '.']) :
    Verified dirs false true (stack ++ [['.', '.']]) := by
  obtain ⟨ha, hb, hc⟩ := h
  refine ⟨?_, ?_, ?_⟩
  · intro p hp
    rcases List.mem_append.1 hp with h | h
    · exact ha p h
    · simp only [List.mem_singleton] at h
      subst h
      simp
  · intro pre p post hsplit hp
    rcases split_concat stack pre post _ p hsplit with ⟨_, h6, _⟩ | ⟨post1, _, h⟩
    · exact ⟨rfl, h6 ▸ hall⟩
    · exact hb pre p post1 h hp
  · intro pre p post hsplit hp hpost
    rcases split_concat stack pre post _ p hsplit with ⟨_, _, h7⟩ | ⟨post1, _, h⟩
    · exact absurd h7 hp
    · exact hc pre p post1 h hp (Or.inr rfl)

theorem Verified.pop (dirs : List String) (rooted : Bool) (stack : List (List Char))
    (h : Verified dirs rooted true stack) : Verified dirs rooted true stack.dropLast := by
  rcases nil_or_snoc stack with hs | ⟨init, a, hs⟩
  · subst hs
    exact h
  · subst hs
    obtain ⟨ha, hb, hc⟩ := h
    rw [List.dropLast_append_of_ne_nil _ (by simp), List.dropLast_single, List.append_nil]
    refine ⟨fun p hp => ha p (by simp [hp]), ?_, ?_⟩
    · intro pre p post hsplit hp
      exact hb pre p (post ++ [a]) (by simp [hsplit]) hp
    · intro pre p post hsplit hp _
      exact hc pre p (post ++ [a]) (by simp [hsplit]) hp (Or.inl (by simp))

theorem Verified.weaken (dirs : List String) (rooted : Bool) (stack : List (List Char))
    (h : Verified dirs rooted true stack) : Verified dirs rooted false stack :=
  ⟨h.1, h.2.1, fun pre p post hs hp _ => h.2.2 pre p post hs hp (Or.inr rfl)⟩

theorem resolveFrom_verified (dirs : List String) (rooted : Bool) (todo : List (List Char)) :
    ∀ stack result, Verified dirs rooted true stack → (∀ p ∈ todo, '/' ∉ p) →
      resolveFrom dirs rooted stack todo = .ok result → Verified dirs rooted false result := by
  induction todo with
  | nil =>
    intro stack result hs _ h
    simp only [resolveFrom, Except.ok.injEq] at h
    exact h ▸ hs.weaken
  | cons piece rest ih =>
    intro stack result hs hslash h
    have hrest : ∀ p ∈ rest, '/' ∉ p := fun p hp => hslash p (List.mem_cons_of_mem _ hp)
    have hpiece : '/' ∉ piece := hslash piece (List.mem_cons_self _ _)
    simp only [resolveFrom] at h
    split at h
    · exact ih stack result hs hrest h
    · rename_i hskip
      simp only [not_or] at hskip
      split at h
      · rename_i hdd
        subst hdd
        split at h
        · rename_i hnil
          subst hnil
          cases rooted with
          | true => exact ih [] result hs hrest (by simpa using h)
          | false =>
            have := Verified.pushUp dirs [] hs (by simp)
            exact ih _ result (by simpa using this) hrest (by simpa using h)
        · split at h
          · rename_i hne hlast
            obtain ⟨init, hinit⟩ := List.getLast?_eq_some_iff.1 hlast
            have hb := hs.2.1 init _ [] (by simpa using hinit) rfl
            have hall : ∀ q ∈ stack, q = ['.', '.'] := by
              intro q hq
              rw [hinit] at hq
              rcases List.mem_append.1 hq with h1 | h1
              · exact hb.2 q h1
              · simpa using h1
            have hr : rooted = false := hb.1
            subst hr
            have := Verified.pushUp dirs stack hs hall
            exact ih _ result this hrest h
          · exact ih _ result (hs.pop) hrest h
      · rename_i hdd
        split at h
        · simp only [Except.ok.injEq] at h
          rw [← h]
          exact Verified.push dirs rooted stack piece hs hskip.1 hskip.2 hpiece hdd false
            (fun e => Bool.noConfusion e)
        · split at h
          · rename_i hdir
            exact ih _ result (Verified.push dirs rooted stack piece hs hskip.1 hskip.2 hpiece hdd
              true (fun _ => hdir)) hrest h
          · simp at h

theorem resolveFrom_again (dirs : List String) (rooted : Bool) (pieces : List (List Char))
    (h : Verified dirs rooted false pieces) :
    ∀ todo stack, stack ++ todo = pieces → resolveFrom dirs rooted stack todo = .ok pieces := by
  intro todo
  induction todo with
  | nil =>
    intro stack hs
    simp only [List.append_nil] at hs
    simp [resolveFrom, hs]
  | cons piece rest ih =>
    intro stack hs
    obtain ⟨ha, hb, hc⟩ := h
    have hp := ha piece (by rw [← hs]; simp)
    have hnext := ih (stack ++ [piece]) (by simp [hs])
    simp only [resolveFrom]
    have hskip : ¬ (piece = [] ∨ piece = ['.']) := by simp [hp.1, hp.2.1]
    rw [if_neg hskip]
    by_cases hdd : piece = ['.', '.']
    · rw [if_pos hdd]
      obtain ⟨hr, hall⟩ := hb stack piece rest hs.symm hdd
      subst hr
      by_cases hnil : stack = []
      · subst hnil
        simpa [hdd] using hnext
      · rw [if_neg hnil]
        have hlast : stack.getLast? = some ['.', '.'] := by
          rcases nil_or_snoc stack with h1 | ⟨init, a, h1⟩
          · exact absurd h1 hnil
          · have := hall a (by rw [h1]; simp)
            rw [h1, this]
            simp
        rw [if_pos hlast]
        simpa [hdd] using hnext
    · rw [if_neg hdd]
      by_cases hrest : rest = []
      · subst hrest
        simp [hs]
      · rw [if_neg hrest, if_pos (hc stack piece rest hs.symm hdd (Or.inl hrest))]
        exact hnext

theorem Verified.nil (dirs : List String) (rooted : Bool) : Verified dirs rooted true [] :=
  ⟨fun p hp => absurd hp (List.not_mem_nil p), fun pre p post h => by simp at h,
    fun pre p post h => by simp at h⟩

theorem intercalate_cons (p : List Char) (ps : List (List Char)) :
    ∃ tail, List.intercalate ['/'] (p :: ps) = p ++ tail := by
  cases ps with
  | nil => exact ⟨[], by simp [List.intercalate, List.intersperse]⟩
  | cons q qs =>
    exact ⟨['/'] ++ (List.intersperse ['/'] (q :: qs)).flatten,
      by simp only [List.intercalate, List.intersperse, List.flatten_cons]⟩

theorem resolve_joinPath (dirs : List String) (name : String) (pieces : List (List Char))
    (h : resolvePieces dirs name = .ok pieces) (hne : pieces ≠ []) :
    resolve dirs (joinPath (isRooted name) pieces) = .ok (joinPath (isRooted name) pieces) := by
  unfold resolvePieces at h
  split at h
  · simp at h
  · have hv := resolveFrom_verified dirs (isRooted name) _ [] pieces (Verified.nil _ _)
      (splitPath_no_slash name.data) h
    have hagain := resolveFrom_again dirs (isRooted name) pieces hv pieces [] rfl
    obtain ⟨p, ps, hp⟩ : ∃ p ps, pieces = p :: ps := by
      cases pieces with
      | nil => exact absurd rfl hne
      | cons p ps => exact ⟨p, ps, rfl⟩
    have hpp := hv.1 p (by rw [hp]; simp)
    obtain ⟨tail, htail⟩ := intercalate_cons p ps
    obtain ⟨c, cs, hc⟩ : ∃ c cs, p = c :: cs := by
      cases p with
      | nil => exact absurd rfl hpp.1
      | cons c cs => exact ⟨c, cs, rfl⟩
    have hcs : c ≠ '/' := fun e => hpp.2.2 (by rw [hc, e]; simp)
    cases hr : isRooted name with
    | true =>
      rw [hr] at hagain
      have hdata : (joinPath true pieces).data = '/' :: List.intercalate ['/'] pieces := by
        rw [hp]; rfl
      have hroot : isRooted (joinPath true pieces) = true := by simp [isRooted, hdata]
      have hnonempty : joinPath true pieces ≠ "" := by
        intro e
        have := congrArg String.data e
        rw [hdata] at this
        simp at this
      have hsplit : splitPath (joinPath true pieces).data = [] :: pieces := by
        rw [hdata]
        simp only [splitPath, if_true]
        rw [splitPath_intercalate pieces hne fun x hx => (hv.1 x hx).2.2]
      simp only [resolve, resolvePieces, hnonempty, if_false, hroot, hsplit]
      simp only [resolveFrom, true_or, if_true, hagain]
    | false =>
      rw [hr] at hagain
      have hdata : (joinPath false pieces).data = List.intercalate ['/'] pieces := by
        rw [hp]; rfl
      have hhead : (joinPath false pieces).data = c :: (cs ++ tail) := by
        rw [hdata, hp, htail, hc]; rfl
      have hroot : isRooted (joinPath false pieces) = false := by
        simp [isRooted, hhead, hcs]
      have hnonempty : joinPath false pieces ≠ "" := by
        intro e
        have := congrArg String.data e
        rw [hhead] at this
        simp at this
      have hsplit : splitPath (joinPath false pieces).data = pieces := by
        rw [hdata]
        exact splitPath_intercalate pieces hne fun x hx => (hv.1 x hx).2.2
      simp only [resolve, resolvePieces, hnonempty, if_false, hroot, hsplit, hagain]

/-! ## Reading and writing files -/

theorem find_replace (name data p : String) (l : List (String × String)) :
    ((l.map fun e => if e.1 = name then (name, data) else e).find? fun e => e.1 = p) =
      if p = name then (if name ∈ l.map Prod.fst then some (name, data) else none)
      else l.find? fun e => e.1 = p := by
  induction l with
  | nil => simp
  | cons e l ih =>
    simp only [List.map_cons, List.find?_cons, List.mem_cons]
    by_cases h1 : e.1 = name <;> by_cases h2 : p = name
    · simp [h1, h2]
    · have h3 : ¬ name = p := fun h => h2 h.symm
      simp [h1, h2, h3, ih]
    · subst h2
      have h3 : ¬ p = e.1 := fun h => h1 h.symm
      simp only [h1, h3, ih, if_false, if_true, decide_False, false_or]
    · simp [h1, h2, ih]

theorem find_none_iff (key : String) (l : List (String × String)) :
    (l.find? fun e => e.1 = key) = none ↔ key ∉ l.map Prod.fst := by
  simp only [List.find?_eq_none, decide_eq_true_eq, List.mem_map, not_exists, not_and]

theorem find_insert (key data p : String) (l : List (String × String))
    (hkey : key ∉ l.map Prod.fst) :
    ((l.orderedInsert walkLE (key, data)).find? fun e => e.1 = p) =
      if p = key then some (key, data) else l.find? fun e => e.1 = p := by
  induction l with
  | nil =>
    by_cases hp : p = key
    · simp [hp]
    · have hp1 : ¬ key = p := fun h => hp h.symm
      simp [hp, hp1]
  | cons e l ih =>
    have hne : e.1 ≠ key := fun h => hkey (by simp [h])
    have hl : key ∉ l.map Prod.fst := fun h => hkey (by simp at h ⊢; exact Or.inr h)
    simp only [List.orderedInsert]
    by_cases hp : p = key
    · subst hp
      split
      · simp
      · simp only [List.find?_cons, hne, decide_False, ih hl, if_true]
    · have hp1 : ¬ key = p := fun h => hp h.symm
      split
      · simp [List.find?_cons, hp1, hp]
      · simp only [List.find?_cons, ih hl, hp, if_false]

theorem WriteFile_ok (fs fs1 : FS) (name data : String)
    (h : WriteFile fs name data = .ok fs1) :
    ∃ key, resolve fs.dirs name = .ok key ∧ fs1.dirs = fs.dirs ∧
      (∀ e ∈ fs1.files, e ∈ fs.files ∨ e = (key, data)) ∧
      ∀ q, (fs1.files.find? fun e => e.1 = q) =
        if q = key then some (key, data) else fs.files.find? fun e => e.1 = q := by
  unfold WriteFile at h
  cases hr : resolvePieces fs.dirs name with
  | error dir => simp [hr] at h
  | ok pieces =>
    simp only [hr] at h
    refine ⟨joinPath (isRooted name) pieces, by simp [resolve, hr], ?_⟩
    split at h
    · simp at h
    · split at h
      · simp at h
      · split at h
        · rename_i hmem
          simp only [Except.ok.injEq] at h
          subst h
          refine ⟨rfl, ?_, ?_⟩
          · intro e he
            obtain ⟨e0, he0, heq⟩ := List.mem_map.1 he
            by_cases hn : e0.1 = joinPath (isRooted name) pieces
            · simp only [hn, if_true] at heq
              exact Or.inr heq.symm
            · simp only [hn, if_false] at heq
              exact Or.inl (heq ▸ he0)
          · intro q
            simp only [find_replace, hmem, if_true]
        · rename_i hmem
          simp only [Except.ok.injEq] at h
          subst h
          refine ⟨rfl, ?_, ?_⟩
          · intro e he
            rcases (List.mem_orderedInsert walkLE).1 he with h1 | h1
            · exact Or.inr h1
            · exact Or.inl h1
          · intro q
            exact find_insert _ _ q fs.files hmem

theorem ReadFile_WriteFile (fs fs1 : FS) (name data : String)
    (h : WriteFile fs name data = .ok fs1) :
    ∃ key, resolve fs.dirs name = .ok key ∧ fs1.dirs = fs.dirs ∧
      ∀ p, ReadFile fs1 p =
        if resolve fs.dirs p = .ok key then some data else ReadFile fs p := by
  obtain ⟨key, hkey, hdirs, _, hfind⟩ := WriteFile_ok fs fs1 name data h
  refine ⟨key, hkey, hdirs, ?_⟩
  intro p
  unfold ReadFile
  rw [hdirs]
  cases hp : resolve fs.dirs p with
  | error dir => simp
  | ok q =>
    simp only [hfind q, Except.ok.injEq]
    by_cases hq : q = key <;> simp [hq]

/-! ## GetProducts -/

theorem commaSep_cons (a : String) (rest : List String) :
    commaSep (a :: rest) = a ++ (if rest = [] then "" else "," ++ commaSep rest) := by
  cases rest with
  | nil => simp [commaSep]
  | cons b rest => simp [commaSep, String.append_assoc]

theorem getLoop_ok (fs : FS) (dataPath : String) (n : Nat) (ids : List String) :
    ∀ (bs : List String) (i : Nat) (buf : String), i + ids.length = n →
      List.Forall₂ (fun id b => ReadFile fs (filePath dataPath id) = some b) ids bs →
      getLoop fs dataPath n ids i buf = .ok (buf ++ commaSep bs) := by
  induction ids with
  | nil =>
    intro bs i buf _ h
    cases h
    simp [getLoop, commaSep]
  | cons id ids ih =>
    intro bs i buf hn h
    cases h with
    | cons hb hrest =>
      rename_i b bs1
      simp only [List.length_cons] at hn
      simp only [getLoop, hb]
      rw [ih bs1 (i + 1) _ (by omega) hrest, commaSep_cons]
      by_cases hnil : ids = []
      · subst hnil
        cases hrest
        have : ¬ i < n - 1 := by simp at hn; omega
        simp [this, commaSep]
      · have hlt : i < n - 1 := by
          have : 0 < ids.length := List.length_pos.2 hnil
          omega
        have hbs : bs1 ≠ [] := by
          intro hb1
          subst hb1
          cases hrest
          exact hnil rfl
        simp [hlt, hbs, String.append_assoc]

theorem getLoop_error (fs : FS) (dataPath : String) (n : Nat) (pre : List String) :
    ∀ (id : String) (post : List String) (i : Nat) (buf : String),
      (∀ x ∈ pre, ReadFile fs (filePath dataPath x) ≠ none) →
      ReadFile fs (filePath dataPath id) = none →
      getLoop fs dataPath n (pre ++ id :: post) i buf =
        .error ("unable to read file: " ++ id ++ ".json") := by
  induction pre with
  | nil =>
    intro id post i buf _ h
    simp [getLoop, h]
  | cons x pre ih =>
    intro id post i buf hpre h
    have hx := hpre x (List.mem_cons_self _ _)
    obtain ⟨b, hb⟩ := Option.ne_none_iff_exists'.1 hx
    simp only [List.cons_append, getLoop, hb]
    exact ih id post _ _ (fun y hy => hpre y (List.mem_cons_of_mem _ hy)) h

theorem getLoop_all_read (fs : FS) (dataPath : String) (n : Nat) (ids : List String) :
    ∀ (i : Nat) (buf : String), (∀ x ∈ ids, ReadFile fs (filePath dataPath x) ≠ none) →
      ∃ out, getLoop fs dataPath n ids i buf = .ok out := by
  induction ids with
  | nil => intro i buf _; exact ⟨buf, rfl⟩
  | cons x ids ih =>
    intro i buf h
    obtain ⟨b, hb⟩ := Option.ne_none_iff_exists'.1 (h x (List.mem_cons_self _ _))
    simp only [getLoop, hb]
    exact ih _ _ fun y hy => h y (List.mem_cons_of_mem _ hy)

theorem exists_first_missing (fs : FS) (dataPath : String) (ids : List String)
    (h : ∃ id ∈ ids, ReadFile fs (filePath dataPath id) = none) :
    ∃ pre id post, ids = pre ++ id :: post ∧
      (∀ x ∈ pre, ReadFile fs (filePath dataPath x) ≠ none) ∧
      ReadFile fs (filePath dataPath id) = none := by
  induction ids with
  | nil => simp at h
  | cons x ids ih =>
    by_cases hx : ReadFile fs (filePath dataPath x) = none
    · exact ⟨[], x, ids, rfl, by simp, hx⟩
    · obtain ⟨id, hid, hnone⟩ := h
      rcases List.mem_cons.1 hid with h1 | h1
      · subst h1
        exact absurd hnone hx
      · obtain ⟨pre, y, post, he, hpre, hy⟩ := ih ⟨id, h1, hnone⟩
        refine ⟨x :: pre, y, post, by simp [he], ?_, hy⟩
        intro z hz
        rcases List.mem_cons.1 hz with h2 | h2
        · subst h2
          exact hx
        · exact hpre z h2

theorem GetProducts_missing (J : JSON) (dataPath : String) (fs : FS)
    (pre post : List String) (id : String)
    (hpre : ∀ x ∈ pre, ReadFile fs (filePath dataPath x) ≠ none)
    (hid : ReadFile fs (filePath dataPath id) = none) :
    GetProducts J dataPath fs (pre ++ id :: post) =
      ⟨StatusBadRequest, .text ("unable to read file: " ++ id ++ ".json")⟩ := by
  have hlen : ¬ (pre ++ id :: post).length < 1 := by simp
  simp only [GetProducts, hlen, if_false, getLoop_error fs dataPath _ pre id post 0 "[" hpre hid]

theorem GetProducts_stored (J : JSON) (hJ : J.Faithful) (dataPath : String) (fs : FS)
    (ids : List String) (ps : List Product)
    (h : List.Forall₂ (fun id p => ReadFile fs (filePath dataPath id) = some (J.MarshalIndent p))
      ids ps) :
    GetProducts J dataPath fs ids = ⟨StatusAccepted, .products ps⟩ := by
  by_cases hlen : ids.length < 1
  · have : ids = [] := List.length_eq_zero.1 (by omega)
    subst this
    cases h
    simp [GetProducts]
  · have h1 : List.Forall₂ (fun id b => ReadFile fs (filePath dataPath id) = some b) ids
        (ps.map J.MarshalIndent) := by
      rw [List.forall₂_map_right_iff]
      exact h
    simp only [GetProducts, hlen, if_false,
      getLoop_ok fs dataPath ids.length ids _ 0 "[" (by omega) h1, hJ ps]

/-- C7: `GetProducts` answers 400 exactly when the file of some requested id
cannot be read; the message then names the first such id of the request and no record
is returned. When the file of every requested id holds the marshalled text of a record,
the answer is 202 with these records in the order of the ids; for an empty list of ids
it is 202 with no record. -/
theorem get_spec (J : JSON) (hJ : J.Faithful) (dataPath : String) (fs : FS)
    (ids : List String) :
    ((GetProducts J dataPath fs ids).statusCode = StatusBadRequest ↔
      ∃ id ∈ ids, ReadFile fs (filePath dataPath id) = none) ∧
    (∀ pre id post, ids = pre ++ id :: post →
      (∀ x ∈ pre, ReadFile fs (filePath dataPath x) ≠ none) →
      ReadFile fs (filePath dataPath id) = none →
      GetProducts J dataPath fs ids =
        ⟨StatusBadRequest, .text ("unable to read file: " ++ id ++ ".json")⟩) ∧
    (∀ ps, List.Forall₂
        (fun id p => ReadFile fs (filePath dataPath id) = some (J.MarshalIndent p)) ids ps →
      GetProducts J dataPath fs ids = ⟨StatusAccepted, .products ps⟩) ∧
    GetProducts J dataPath fs [] = ⟨StatusAccepted, .products []⟩ := by
  refine ⟨⟨?_, ?_⟩, ?_, ?_, ?_⟩
  · intro h
    by_contra hne
    have hall : ∀ x ∈ ids, ReadFile fs (filePath dataPath x) ≠ none := by
      intro x hx hnone
      exact hne ⟨x, hx, hnone⟩
    obtain ⟨out, hout⟩ := getLoop_all_read fs dataPath ids.length ids 0 "[" hall
    unfold GetProducts at h
    split at h
    · simp [StatusAccepted, StatusBadRequest] at h
    · rw [hout] at h
      simp only at h
      split at h <;> simp [StatusAccepted, StatusBadRequest] at h
  · intro h
    obtain ⟨pre, id, post, he, hpre, hid⟩ := exists_first_missing fs dataPath ids h
    rw [he, GetProducts_missing J dataPath fs pre post id hpre hid]
  · intro pre id post he hpre hid
    rw [he, GetProducts_missing J dataPath fs pre post id hpre hid]
  · intro ps h
    exact GetProducts_stored J hJ dataPath fs ids ps h
  · simp [GetProducts]

/-- Witness of C7: in the store that holds record `100`, the ids `100`, `7`. -/
theorem get_spec_witness :
    GetProducts compactJSON "data" shirtStore ["100", "7"] =
      ⟨StatusBadRequest, .text "unable to read file: 7.json"⟩ ∧
    GetProducts compactJSON "data" shirtStore ["100"] =
      ⟨StatusAccepted, .products [shirtStored]⟩ :=
  ⟨(get_spec compactJSON compactJSON_faithful "data" shirtStore ["100", "7"]).2.1
      ["100"] "7" [] rfl (by decide) (by decide),
    (get_spec compactJSON compactJSON_faithful "data" shirtStore ["100"]).2.2.1
      [shirtStored] (List.Forall₂.cons (by decide) List.Forall₂.nil)⟩

/-! ## PutProducts followed by GetProducts -/

theorem putLoop_stored (J : JSON) (dataPath : String) (now : Nat → Int) (batch : List Product) :
    ∀ (k : Nat) (fs : FS) (done : List Product) (fs1 : FS) (R : List Product),
      putLoop J dataPath now batch k fs done = (fs1, .ok R) →
      ∃ R1, R = done ++ R1 ∧ fs1.dirs = fs.dirs ∧
        (∀ path, (∀ r ∈ R1, resolve fs.dirs (filePath dataPath r.ID) ≠ resolve fs.dirs path) →
          ReadFile fs1 path = ReadFile fs path) ∧
        ((R1.map fun r => resolve fs.dirs (filePath dataPath r.ID)).Nodup →
          ∀ r ∈ R1, ReadFile fs1 (filePath dataPath r.ID) = some (J.MarshalIndent r)) := by
  induction batch with
  | nil =>
    intro k fs done fs1 R h
    simp only [putLoop, Prod.mk.injEq, Except.ok.injEq] at h
    exact ⟨[], by simp [h.2], by rw [h.1], fun _ _ => by rw [h.1],
      fun _ r hr => absurd hr (List.not_mem_nil r)⟩
  | cons p batch ih =>
    intro k fs done fs1 R h
    simp only [putLoop] at h
    split at h
    · simp at h
    · rename_i fs2 hw
      obtain ⟨R1, hR, hdirs1, hframe, hstored⟩ := ih _ _ _ _ _ h
      obtain ⟨key, hkey, hdirs2, hread⟩ := ReadFile_WriteFile fs fs2 _ _ hw
      rw [hdirs2] at hframe hstored hdirs1
      refine ⟨(assignIDs now p k).1 :: R1, by simp [hR], hdirs1, ?_, ?_⟩
      · intro path hpath
        rw [hframe path fun r hr => hpath r (List.mem_cons_of_mem _ hr), hread path]
        have hne : resolve fs.dirs path ≠ .ok key := by
          intro e
          exact hpath _ (List.mem_cons_self _ _) (by rw [hkey, e])
        simp [hne]
      · intro hnodup r hr
        simp only [List.map_cons, List.nodup_cons] at hnodup
        rcases List.mem_cons.1 hr with h1 | h1
        · subst h1
          rw [hframe _ ?_, hread, hkey]
          · simp
          · intro r1 hr1 e
            exact hnodup.1 (List.mem_map.2 ⟨r1, hr1, e⟩)
        · exact hstored hnodup.2 r h1

/-- C1, amended: when `PutProducts` succeeds and returns the records `R`, and
the paths `<dataPath>/<id>.json` of the records of `R` resolve to pairwise distinct
files, `GetProducts` on the ids of `R`, in the same order, answers 202 with exactly the
records `R`. -/
theorem put_get_roundtrip (J : JSON) (hJ : J.Faithful) (dataPath : String) (now : Nat → Int)
    (fs fs1 : FS) (batch R : List Product)
    (hput : PutProducts J dataPath now fs batch = (fs1, ⟨StatusAccepted, .products R⟩))
    (hdistinct : (R.map fun r => resolve fs.dirs (filePath dataPath r.ID)).Nodup) :
    GetProducts J dataPath fs1 (R.map Product.ID) = ⟨StatusAccepted, .products R⟩ := by
  obtain ⟨R1, hR, _, _, hstored⟩ := putLoop_stored J dataPath now batch 0 fs [] fs1 R
    (PutProducts_accepted J dataPath now fs fs1 batch R hput).2
  simp only [List.nil_append] at hR
  subst hR
  apply GetProducts_stored J hJ
  rw [List.forall₂_map_left_iff, List.forall₂_same]
  exact fun r hr => hstored hdistinct r hr

set_option maxRecDepth 100000 in
/-- Witness of C1, amended: the records `shirt`, without ids, and `7` put into an
empty data directory, in files of their own. -/
theorem put_get_roundtrip_witness :
    PutProducts compactJSON "data" sampleClock emptyStore [shirt, item "7"] =
      (pairStore, ⟨StatusAccepted, .products [shirtStored, item "7"]⟩) ∧
    GetProducts compactJSON "data" pairStore ["100", "7"] =
      ⟨StatusAccepted, .products [shirtStored, item "7"]⟩ :=
  ⟨by decide, put_get_roundtrip compactJSON compactJSON_faithful "data" sampleClock emptyStore
    pairStore [shirt, item "7"] [shirtStored, item "7"] (by decide) (by decide)⟩

set_option maxRecDepth 100000 in
/-- C1 fails as stated: the two records of `twins` carry the id `1`. `PutProducts`
succeeds and returns both, the second one overwrites the file of the first, and
`GetProducts` on the returned ids `1`, `1` answers with the second record twice. The
same happens to the records of `aliases`, whose ids `x` and `./x` differ and name the
same file `data/x.json`. -/
theorem put_get_roundtrip_counterexample :
    (Products.Validate twins = .ok () ∧
      PutProducts compactJSON "data" sampleClock emptyStore twins =
        (twinStore, ⟨StatusAccepted, .products twins⟩) ∧
      GetProducts compactJSON "data" twinStore (twins.map Product.ID) =
        ⟨StatusAccepted, .products
          [⟨"second", "1", [⟨"S", "3"⟩], []⟩, ⟨"second", "1", [⟨"S", "3"⟩], []⟩]⟩ ∧
      GetProducts compactJSON "data" twinStore (twins.map Product.ID) ≠
        ⟨StatusAccepted, .products twins⟩) ∧
    (Products.Validate aliases = .ok () ∧
      PutProducts compactJSON "data" sampleClock emptyStore aliases =
        (aliasStore, ⟨StatusAccepted, .products aliases⟩) ∧
      GetProducts compactJSON "data" aliasStore (aliases.map Product.ID) =
        ⟨StatusAccepted, .products
          [⟨"second", "./x", [⟨"S", "3"⟩], []⟩, ⟨"second", "./x", [⟨"S", "3"⟩], []⟩]⟩ ∧
      GetProducts compactJSON "data" aliasStore (aliases.map Product.ID) ≠
        ⟨StatusAccepted, .products aliases⟩) := by
  decide

/-! ## GetProductsPage -/

theorem sortStrings_perm (files : List String) : (sortStrings files).Perm files :=
  List.perm_insertionSort _ files

theorem sortStrings_sorted (files : List String) :
    (sortStrings files).Sorted fun a b => a.data ≤ b.data :=
  @List.sorted_insertionSort String (fun a b => a.data ≤ b.data) _
    ⟨fun a b => le_total a.data b.data⟩ ⟨fun _ _ _ h1 h2 => le_trans h1 h2⟩ files

theorem scanOffset_eq (cpc : String) (files : List String) :
    ∀ i, scanOffset cpc files i =
      if (files.any fun path => Contains path cpc) = true
      then i + files.findIdx (fun path => Contains path cpc) + 1 else 0 := by
  induction files with
  | nil => intro i; simp [scanOffset]
  | cons f files ih =>
    intro i
    by_cases h : Contains f cpc = true
    · simp [scanOffset, h, List.findIdx_cons]
    · simp only [Bool.not_eq_true] at h
      simp only [scanOffset, h, ih, List.any_cons, Bool.false_or, List.findIdx_cons, cond_false]
      by_cases hany : (files.any fun path => Contains path cpc) = true
      · simp only [hany, if_true]
        simp
        omega
      · simp [hany]

theorem pageOffset_eq (files : List String) (cursor : String) :
    (if (if cursor = "" then "0" else cursor) ≠ "0"
      then scanOffset (if cursor = "" then "0" else cursor) files 0 else 0) =
      pageOffset files cursor := by
  unfold pageOffset
  by_cases h1 : cursor = ""
  · simp [h1]
  · by_cases h2 : cursor = "0"
    · simp [h2]
    · simp only [h1, h2, if_false, ne_eq, not_false_eq_true, if_true, scanOffset_eq, false_or]
      by_cases h3 : (files.any fun path => Contains path cursor) = true
      · simp [h3]
      · simp only [Bool.not_eq_true] at h3
        simp [h3]

theorem pageLoop_ok (fs : FS) (files : List String) (offset : Nat) (limit : Int)
    (content : String → String) (hread : ∀ path ∈ files, ReadFile fs path = some (content path)) :
    ∀ (n i : Nat) (buf : String), ((i + n : Nat) : Int) = limit →
      pageLoop fs files offset limit n i buf =
        .ok (buf ++ commaSep (((files.drop (offset + i)).take n).map content)) := by
  intro n
  induction n with
  | zero => intro i buf _; simp [pageLoop, commaSep]
  | succ n ih =>
    intro i buf hlim
    cases hget : files[offset + i]? with
    | none =>
      have hle : files.length ≤ offset + i := List.getElem?_eq_none_iff.1 hget
      simp only [pageLoop, hget, List.drop_eq_nil_of_le hle, List.take_nil, List.map_nil,
        commaSep, String.append_empty]
    | some path =>
      obtain ⟨hlt, hpath⟩ := List.getElem?_eq_some.1 hget
      have hdrop : files.drop (offset + i) = path :: files.drop (offset + i + 1) := by
        rw [← hpath]
        exact List.drop_eq_getElem_cons hlt
      have hmem : path ∈ files := hpath ▸ List.getElem_mem hlt
      simp only [pageLoop, hget, hread path hmem]
      rw [ih (i + 1) _ (by omega), hdrop, List.take_succ_cons, List.map_cons, commaSep_cons]
      have hoff : offset + (i + 1) = offset + i + 1 := by omega
      rw [hoff]
      by_cases hcond : (i : Int) + 1 < limit ∧ offset + i + 1 < files.length
      · have hne : ((files.drop (offset + i + 1)).take n).map content ≠ [] := by
          have h1 : 0 < n := by omega
          have h2 : 0 < (files.drop (offset + i + 1)).length := by
            rw [List.length_drop]; omega
          intro hnil
          have := congrArg List.length hnil
          simp only [List.length_map, List.length_take, List.length_nil] at this
          omega
        rw [if_pos hcond, if_neg hne, String.append_assoc, String.append_assoc]
      · have hnil : ((files.drop (offset + i + 1)).take n).map content = [] := by
          by_cases h1 : (i : Int) + 1 < limit
          · have h2 : files.length ≤ offset + i + 1 := by
              by_contra h3
              exact hcond ⟨h1, by omega⟩
            simp [List.drop_eq_nil_of_le h2]
          · have h2 : n = 0 := by omega
            simp [h2]
        rw [if_neg hcond, hnil, if_pos rfl, commaSep, String.append_empty, String.append_empty]

theorem GetProductsPage_window (J : JSON) (hJ : J.Faithful) (dataPath : String) (fs : FS)
    (cursor limitParam : String) (limit : Int) (walked : List String)
    (recordOf : String → Product)
    (hl : Atoi (if limitParam = "" then "10" else limitParam) = some limit)
    (hlimit : 1 ≤ limit)
    (hwalk : Walk fs dataPath = .ok walked)
    (hstore : ∀ path ∈ walked, ReadFile fs path = some (J.MarshalIndent (recordOf path))) :
    GetProductsPage J dataPath fs cursor limitParam =
      ⟨StatusAccepted, .products
        ((((sortStrings walked).drop (pageOffset (sortStrings walked) cursor)).take
          limit.toNat).map recordOf)⟩ := by
  have hne : limit ≠ 0 := by omega
  have hread : ∀ path ∈ sortStrings walked,
      ReadFile fs path = some ((fun q => J.MarshalIndent (recordOf q)) path) :=
    fun path hp => hstore path ((sortStrings_perm walked).mem_iff.1 hp)
  have hloop := pageLoop_ok fs (sortStrings walked) (pageOffset (sortStrings walked) cursor)
    limit _ hread limit.toNat 0 "[" (by omega)
  simp only [GetProductsPage, hl, hwalk, hne, if_false, pageOffset_eq, hloop, Nat.add_zero]
  have hmap : ∀ xs : List String, xs.map (fun q => J.MarshalIndent (recordOf q)) =
      (xs.map recordOf).map J.MarshalIndent := fun xs => by simp
  rw [hmap, hJ]

/-- C6: for a limit of at least 1, when the listing of the data directory
succeeds and every listed file holds the marshalled text of its record,
`GetProductsPage` answers 202 with the records of the paths
`(listing.drop offset).take limit` of the sorted listing, in the order of the listing,
where `offset` is `pageOffset`: `0` for an absent cursor (empty or `0`) and for a cursor no
path contains, else one past the index of the first path that contains the cursor.
A limit beyond the end of the listing gives the shorter rest and no error. -/
theorem page_window (J : JSON) (hJ : J.Faithful) (dataPath : String) (fs : FS)
    (cursor limitParam : String) (limit : Int) (walked : List String)
    (recordOf : String → Product)
    (hl : Atoi (if limitParam = "" then "10" else limitParam) = some limit)
    (hlimit : 1 ≤ limit)
    (hwalk : Walk fs dataPath = .ok walked)
    (hstore : ∀ path ∈ walked, ReadFile fs path = some (J.MarshalIndent (recordOf path))) :
    GetProductsPage J dataPath fs cursor limitParam =
      ⟨StatusAccepted, .products
        ((((sortStrings walked).drop (pageOffset (sortStrings walked) cursor)).take
          limit.toNat).map recordOf)⟩ :=
  GetProductsPage_window J hJ dataPath fs cursor limitParam limit walked recordOf hl hlimit
    hwalk hstore

set_option maxRecDepth 100000 in
/-- Witness of C6: the store with the records `100`, `101`, `102`, the cursor `101`
and the limit 2: the page is the record `102` alone. -/
theorem page_window_witness :
    GetProductsPage compactJSON "data" threeStore "101" "2" =
      ⟨StatusAccepted, .products [item "102"]⟩ :=
  (page_window compactJSON compactJSON_faithful "data" threeStore "101" "2" 2
    ["data/100.json", "data/101.json", "data/102.json"] sampleRecordOf
    (by decide) (by decide) (by decide) (by decide)).trans (by decide)

/-- C3, amended: with a limit of 0, `GetProductsPage` answers 202 with an empty
page for every cursor and whatever the files are, provided the listing of the data
directory succeeds; when the listing fails it answers 400 with the error of the listing. -/
theorem page_limit_zero (J : JSON) (dataPath : String) (fs : FS) (cursor limitParam : String)
    (hl : Atoi (if limitParam = "" then "10" else limitParam) = some 0) :
    (∀ walked, Walk fs dataPath = .ok walked →
      GetProductsPage J dataPath fs cursor limitParam = ⟨StatusAccepted, .products []⟩) ∧
    (∀ err, Walk fs dataPath = .error err →
      GetProductsPage J dataPath fs cursor limitParam = ⟨StatusBadRequest, .text err⟩) := by
  constructor
  · intro walked hwalk
    simp [GetProductsPage, hl, hwalk]
  · intro err hwalk
    simp [GetProductsPage, hl, hwalk]

/-- Witness of C3, amended: the store with three records and the cursor `101`. -/
theorem page_limit_zero_witness :
    GetProductsPage compactJSON "data" threeStore "101" "0" = ⟨StatusAccepted, .products []⟩ :=
  (page_limit_zero compactJSON "data" threeStore "101" "0" (by decide)).1
    ["data/100.json", "data/101.json", "data/102.json"] (by decide)

/-- C3 fails as stated: when the data directory does not exist, `GetProductsPage`
with the limit 0 walks the directory before it looks at the limit and answers 400 with
the error of the walk instead of an empty page. -/
theorem page_limit_zero_counterexample :
    Atoi "0" = some 0 ∧
    GetProductsPage compactJSON "data" noStore "" "0" =
      ⟨StatusBadRequest, .text "lstat data: no such file or directory"⟩ ∧
    GetProductsPage compactJSON "data" noStore "" "0" ≠ ⟨StatusAccepted, .products []⟩ := by
  decide

/-! ## Sequential pages -/

theorem pageOffset_cursor (listing : List String) (recordOf : String → Product)
    (hsafe : CursorSafe listing recordOf) (pre post : List String) (path : String)
    (h : listing = pre ++ path :: post) :
    pageOffset listing (recordOf path).ID = pre.length + 1 := by
  obtain ⟨h1, h2, h3, h4⟩ := hsafe pre path post h
  have hany : (listing.any fun q => Contains q (recordOf path).ID) = true := by
    rw [List.any_eq_true]
    exact ⟨path, by rw [h]; simp, h3⟩
  have hpre : List.findIdx (fun q => Contains q (recordOf path).ID) pre = pre.length :=
    List.findIdx_eq_length.2 fun x hx => by simp [h4 x hx]
  unfold pageOffset
  simp only [h1, h2, hany, false_or, Bool.true_eq_false, if_false]
  rw [h, List.findIdx_append, hpre, List.findIdx_cons, h3]
  simp

theorem CursorSafe.nodup (listing : List String) (recordOf : String → Product)
    (hsafe : CursorSafe listing recordOf) :
    ∀ (tail pre : List String), listing = pre ++ tail → (tail.map recordOf).Nodup := by
  intro tail
  induction tail with
  | nil => intro pre _; simp
  | cons path tail ih =>
    intro pre h
    rw [List.map_cons, List.nodup_cons]
    refine ⟨?_, ih (pre ++ [path]) (by simp [h])⟩
    intro hmem
    obtain ⟨q, hq, heq⟩ := List.mem_map.1 hmem
    obtain ⟨s1, s2, hs⟩ := List.append_of_mem hq
    have hsplit : listing = (pre ++ path :: s1) ++ q :: s2 := by simp [h, hs]
    obtain ⟨_, _, _, hq4⟩ := hsafe (pre ++ path :: s1) q s2 hsplit
    obtain ⟨_, _, hp3, _⟩ := hsafe pre path (s1 ++ q :: s2) (by simp [h, hs])
    have := hq4 path (by simp)
    rw [heq, hp3] at this
    exact Bool.noConfusion this

theorem collectPages_flatten (J : JSON) (hJ : J.Faithful) (dataPath : String) (fs : FS)
    (limitParam : String) (limit : Int) (walked : List String) (recordOf : String → Product)
    (hl : Atoi (if limitParam = "" then "10" else limitParam) = some limit)
    (hlimit : 1 ≤ limit)
    (hwalk : Walk fs dataPath = .ok walked)
    (hstore : ∀ path ∈ walked, ReadFile fs path = some (J.MarshalIndent (recordOf path)))
    (hsafe : CursorSafe (sortStrings walked) recordOf) :
    ∀ (fuel : Nat) (A B : List String) (cursor : String), sortStrings walked = A ++ B →
      pageOffset (sortStrings walked) cursor = A.length → B.length < fuel →
      (collectPages J dataPath fs limitParam fuel cursor).flatten = B.map recordOf := by
  intro fuel
  induction fuel with
  | zero => intro A B cursor _ _ hB; omega
  | succ fuel ih =>
    intro A B cursor hAB hoff hB
    have hpage := GetProductsPage_window J hJ dataPath fs cursor limitParam limit walked
      recordOf hl hlimit hwalk hstore
    rw [hoff, hAB, List.drop_left] at hpage
    simp only [collectPages, hpage]
    cases hlast : ((B.take limit.toNat).map recordOf).getLast? with
    | none =>
      have hnil : (B.take limit.toNat).map recordOf = [] := List.getLast?_eq_none_iff.1 hlast
      have hk : 0 < limit.toNat := by omega
      have hBnil : B = [] := by
        cases B with
        | nil => rfl
        | cons b B =>
          obtain ⟨k, hk1⟩ : ∃ k, limit.toNat = k + 1 := ⟨limit.toNat - 1, by omega⟩
          rw [hk1] at hnil
          simp at hnil
      simp [hBnil]
    | some last =>
      obtain ⟨ys, hys⟩ := List.getLast?_eq_some_iff.1 hlast
      obtain ⟨W1, w, hW, _, hw⟩ : ∃ W1 w, B.take limit.toNat = W1 ++ [w] ∧
          W1.map recordOf = ys ∧ recordOf w = last := by
        have := List.map_eq_append_iff.1 hys
        obtain ⟨l1, l2, h1, h2, h3⟩ := this
        cases l2 with
        | nil => simp at h3
        | cons w l3 =>
          simp only [List.map_cons, List.cons.injEq, List.map_eq_nil_iff] at h3
          exact ⟨l1, w, by rw [h1, h3.2], h2, h3.1⟩
      have hB2 : B = (W1 ++ [w]) ++ B.drop limit.toNat := by
        rw [← hW, List.take_append_drop]
      have hsplit : sortStrings walked = (A ++ W1) ++ w :: B.drop limit.toNat := by
        rw [hAB]
        conv_lhs => rw [hB2]
        simp
      have hnext := pageOffset_cursor (sortStrings walked) recordOf hsafe _ _ w hsplit
      have hsplit2 : sortStrings walked = (A ++ (W1 ++ [w])) ++ B.drop limit.toNat := by
        rw [hsplit]; simp
      have hlen : (B.drop limit.toNat).length < fuel := by
        have h1 : (B.take limit.toNat).length = W1.length + 1 := by rw [hW]; simp
        have h2 := congrArg List.length (List.take_append_drop limit.toNat B)
        rw [List.length_append, h1] at h2
        omega
      have hrec := ih (A ++ (W1 ++ [w])) (B.drop limit.toNat) (recordOf w).ID hsplit2
        (by rw [hnext]; simp; omega) hlen
      simp only [List.flatten_cons]
      rw [← hw, hrec, ← List.map_append, List.take_append_drop]

/-- C2, amended: for a limit of at least 1, when the listing of the data
directory succeeds, every listed file holds the marshalled text of its record and every
record can serve as a cursor (`CursorSafe`: its id is neither empty nor `0`, its own
path contains the id and no earlier path of the sorted listing does), the pages a
client collects, starting with no cursor and asking again with the id of the last record
of the page before and the same limit, are pairwise disjoint and their concatenation is
the list of the records of the sorted listing, in which no record occurs twice. -/
theorem pages_cover_listing (J : JSON) (hJ : J.Faithful) (dataPath : String) (fs : FS)
    (limitParam : String) (limit : Int) (walked : List String) (recordOf : String → Product)
    (fuel : Nat)
    (hl : Atoi (if limitParam = "" then "10" else limitParam) = some limit)
    (hlimit : 1 ≤ limit)
    (hwalk : Walk fs dataPath = .ok walked)
    (hstore : ∀ path ∈ walked, ReadFile fs path = some (J.MarshalIndent (recordOf path)))
    (hsafe : CursorSafe (sortStrings walked) recordOf)
    (hfuel : walked.length < fuel) :
    (collectPages J dataPath fs limitParam fuel "").flatten =
        (sortStrings walked).map recordOf ∧
      (collectPages J dataPath fs limitParam fuel "").Pairwise List.Disjoint ∧
      ((sortStrings walked).map recordOf).Nodup := by
  have hflat := collectPages_flatten J hJ dataPath fs limitParam limit walked recordOf hl hlimit
    hwalk hstore hsafe fuel [] (sortStrings walked) "" rfl (by simp [pageOffset])
    (by rw [(sortStrings_perm walked).length_eq]; exact hfuel)
  have hnodup := CursorSafe.nodup (sortStrings walked) recordOf hsafe (sortStrings walked) [] rfl
  refine ⟨hflat, ?_, hnodup⟩
  have h := hnodup
  rw [← hflat] at h
  exact (List.nodup_flatten.1 h).2

theorem cursorSafeFrom_sound (recordOf : String → Product) (rest : List String) :
    ∀ pre0 : List String, cursorSafeFrom recordOf pre0 rest = true →
      ∀ pre path post, rest = pre ++ path :: post →
        (recordOf path).ID ≠ "" ∧ (recordOf path).ID ≠ "0" ∧
        Contains path (recordOf path).ID = true ∧
        ∀ q ∈ pre0 ++ pre, Contains q (recordOf path).ID = false := by
  induction rest with
  | nil => intro pre0 _ pre path post h; simp at h
  | cons r rest ih =>
    intro pre0 hcheck pre path post h
    simp only [cursorSafeFrom, Bool.and_eq_true, decide_eq_true_eq, List.all_eq_true,
      Bool.not_eq_true'] at hcheck
    obtain ⟨⟨⟨⟨h1, h2⟩, h3⟩, h4⟩, h5⟩ := hcheck
    cases pre with
    | nil =>
      simp only [List.nil_append, List.cons.injEq] at h
      obtain ⟨hr, _⟩ := h
      subst hr
      exact ⟨h1, h2, h3, by simpa using h4⟩
    | cons a pre =>
      simp only [List.cons_append, List.cons.injEq] at h
      obtain ⟨hr, hrest⟩ := h
      subst hr
      have := ih (pre0 ++ [r]) h5 pre path post hrest
      simpa using this

theorem cursorSafe_of_check (listing : List String) (recordOf : String → Product)
    (h : cursorSafeFrom recordOf [] listing = true) : CursorSafe listing recordOf := by
  intro pre path post hsplit
  have := cursorSafeFrom_sound recordOf listing [] h pre path post hsplit
  simpa using this

set_option maxRecDepth 100000 in
/-- Witness of C2, amended: the store with the records `100`, `101`, `102` and
the limit 2: the pages are `100`, `101` and then `102`. -/
theorem pages_cover_listing_witness :
    (collectPages compactJSON "data" threeStore "2" 4 "").flatten =
        [item "100", item "101", item "102"] ∧
      (collectPages compactJSON "data" threeStore "2" 4 "").Pairwise List.Disjoint :=
  have h := pages_cover_listing compactJSON compactJSON_faithful "data" threeStore "2" 2
    ["data/100.json", "data/101.json", "data/102.json"] sampleRecordOf 4
    (by decide) (by decide) (by decide) (by decide)
    (cursorSafe_of_check _ _ (by decide)) (by decide)
  ⟨h.1.trans (by decide), h.2.1⟩

set_option maxRecDepth 100000 in
/-- C2 fails as stated: in the store with the records `12` and `2` and with the
limit 1, the first page is the record `12`, the second, asked for with the cursor `12`,
is the record `2`, and the third, asked for with the cursor `2`, is the record `2`
again, because the path of the record `12` contains the cursor `2`. -/
theorem pages_cover_listing_counterexample :
    GetProductsPage compactJSON "data" overlapStore "" "1" =
      ⟨StatusAccepted, .products [item "12"]⟩ ∧
    GetProductsPage compactJSON "data" overlapStore "12" "1" =
      ⟨StatusAccepted, .products [item "2"]⟩ ∧
    GetProductsPage compactJSON "data" overlapStore "2" "1" =
      ⟨StatusAccepted, .products [item "2"]⟩ ∧
    collectPages compactJSON "data" overlapStore "1" 3 "" =
      [[item "12"], [item "2"], [item "2"]] := by
  decide

/-! ## Removing files -/

theorem Remove_ok (fs : FS) (name : String) (hmem : name ∈ fs.files.map Prod.fst)
    (hrw : name ∉ fs.readOnly) :
    Remove fs name = .ok { fs with files := fs.files.filter fun e => e.1 ≠ name } := by
  simp [Remove, hmem, hrw]

theorem removeMatching_ok (id : String) (files : List String) :
    ∀ fs : FS, files.Nodup →
      (∀ path ∈ files, Contains path id = true →
        path ∈ fs.files.map Prod.fst ∧ path ∉ fs.readOnly) →
      removeMatching id files fs =
        ({ fs with files := fs.files.filter fun e =>
            ! (decide (e.1 ∈ files) && Contains e.1 id) }, none) := by
  induction files with
  | nil =>
    intro fs _ _
    simp [removeMatching]
  | cons file files ih =>
    intro fs hnodup h
    rw [List.nodup_cons] at hnodup
    by_cases hc : Contains file id = true
    · obtain ⟨hmem, hrw⟩ := h file (List.mem_cons_self _ _) hc
      simp only [removeMatching, hc, if_true, Remove_ok fs file hmem hrw]
      rw [ih _ hnodup.2]
      · simp only [List.filter_filter, Prod.mk.injEq, and_true]
        congr 1
        apply List.filter_congr
        intro e _
        by_cases he : e.1 = file
        · simp [he, hc]
        · simp [he]
      · intro path hp hcp
        obtain ⟨hm, hr⟩ := h path (List.mem_cons_of_mem _ hp) hcp
        refine ⟨?_, hr⟩
        have hne : path ≠ file := fun e => hnodup.1 (e ▸ hp)
        obtain ⟨e, he, hfst⟩ := List.mem_map.1 hm
        exact List.mem_map.2 ⟨e, List.mem_filter.2 ⟨he, by simp [hfst, hne]⟩, hfst⟩
    · simp only [removeMatching, hc, if_false, Bool.false_eq_true]
      rw [ih fs hnodup.2 fun path hp hcp => h path (List.mem_cons_of_mem _ hp) hcp]
      simp only [Prod.mk.injEq, and_true]
      congr 1
      apply List.filter_congr
      intro e _
      by_cases he : e.1 = file
      · have : Contains e.1 id = false := by rw [he]; simpa using hc
        simp [this]
      · simp [he]

theorem deleteLoop_ok (files : List String) (hnodup : files.Nodup) (ids : List String) :
    ∀ fs : FS, NoDoubleMatch files ids →
      (∀ path ∈ files, (ids.any fun id => Contains path id) = true →
        path ∈ fs.files.map Prod.fst ∧ path ∉ fs.readOnly) →
      deleteLoop files ids fs =
        ({ fs with files := fs.files.filter fun e =>
            ! (decide (e.1 ∈ files) && ids.any fun id => Contains e.1 id) }, none) := by
  induction ids with
  | nil =>
    intro fs _ _
    simp [deleteLoop]
  | cons id ids ih =>
    intro fs hpair h
    unfold NoDoubleMatch at hpair
    rw [List.pairwise_cons] at hpair
    have h1 := removeMatching_ok id files fs hnodup fun path hp hc =>
      h path hp (by simp [hc])
    simp only [deleteLoop, h1]
    rw [ih _ hpair.2]
    · simp only [List.filter_filter, Prod.mk.injEq, and_true]
      congr 1
      apply List.filter_congr
      intro e _
      by_cases he : e.1 ∈ files <;> simp [he, Bool.not_or]
      exact Bool.and_comm _ _
    · intro path hp hany
      obtain ⟨b, hb, hcb⟩ := List.any_eq_true.1 hany
      obtain ⟨hm, hr⟩ := h path hp (by simp only [List.any_cons, hany, Bool.or_true])
      refine ⟨?_, hr⟩
      have hnot : Contains path id = false := by
        by_contra hc
        simp only [Bool.not_eq_false] at hc
        exact hpair.1 b hb path hp ⟨hc, hcb⟩
      obtain ⟨e, he, hfst⟩ := List.mem_map.1 hm
      exact List.mem_map.2 ⟨e, List.mem_filter.2 ⟨he, by simp [hfst, hnot]⟩, hfst⟩

theorem removeAll_ok (files : List String) :
    ∀ fs : FS, files.Nodup →
      (∀ path ∈ files, path ∈ fs.files.map Prod.fst ∧ path ∉ fs.readOnly) →
      removeAll files fs =
        ({ fs with files := fs.files.filter fun e => ! decide (e.1 ∈ files) }, none) := by
  induction files with
  | nil =>
    intro fs _ _
    simp [removeAll]
  | cons file files ih =>
    intro fs hnodup h
    rw [List.nodup_cons] at hnodup
    obtain ⟨hmem, hrw⟩ := h file (List.mem_cons_self _ _)
    simp only [removeAll, Remove_ok fs file hmem hrw]
    rw [ih _ hnodup.2]
    · simp only [List.filter_filter, Prod.mk.injEq, and_true]
      congr 1
      apply List.filter_congr
      intro e _
      by_cases he : e.1 = file <;> simp [he]
    · intro path hp
      obtain ⟨hm, hr⟩ := h path (List.mem_cons_of_mem _ hp)
      refine ⟨?_, hr⟩
      have hne : path ≠ file := fun e => hnodup.1 (e ▸ hp)
      obtain ⟨e, he, hfst⟩ := List.mem_map.1 hm
      exact List.mem_map.2 ⟨e, List.mem_filter.2 ⟨he, by simp [hfst, hne]⟩, hfst⟩

theorem Walk_filter (fs : FS) (dataPath : String) (walked : List String)
    (h : Walk fs dataPath = .ok walked) :
    ∃ P : String → Bool, walked = (fs.files.map Prod.fst).filter P ∧
      ∀ fs1 : FS, fs1.dirs = fs.dirs →
        Walk fs1 dataPath = .ok ((fs1.files.map Prod.fst).filter P) := by
  unfold Walk at h
  cases hr : resolvePieces fs.dirs dataPath with
  | error dir => simp [hr] at h
  | ok pieces =>
    simp only [hr] at h
    split at h
    · rename_i hdir
      simp only [Except.ok.injEq] at h
      refine ⟨fun path => isBelow (isRooted dataPath) pieces path && HasSuffix path ".json",
        ?_, ?_⟩
      · rw [← h]
        simp only [filesBelow, List.filter_filter]
        apply List.filter_congr
        intro x _
        exact Bool.and_comm _ _
      · intro fs1 hdirs
        unfold Walk
        rw [hdirs, hr]
        simp only [hdir, if_true, filesBelow, List.filter_filter, Except.ok.injEq]
        apply List.filter_congr
        intro x _
        exact Bool.and_comm _ _
    · simp at h

theorem Walk_nodup (fs : FS) (hwf : fs.WF) (dataPath : String) (walked : List String)
    (h : Walk fs dataPath = .ok walked) : walked.Nodup := by
  obtain ⟨P, hP, _⟩ := Walk_filter fs dataPath walked h
  rw [hP]
  exact hwf.filter _

theorem Walk_mem (fs : FS) (dataPath : String) (walked : List String)
    (h : Walk fs dataPath = .ok walked) (path : String) (hp : path ∈ walked) :
    path ∈ fs.files.map Prod.fst := by
  obtain ⟨P, hP, _⟩ := Walk_filter fs dataPath walked h
  rw [hP] at hp
  exact (List.mem_filter.1 hp).1

/-! ## Paths of record files -/

theorem containsChars_iff (s sub : List Char) : containsChars s sub = true ↔ sub <:+: s := by
  induction s with
  | nil =>
    cases sub <;> simp [containsChars]
  | cons c s ih =>
    simp only [containsChars, Bool.or_eq_true, List.isPrefixOf_iff_prefix, ih]
    constructor
    · rintro (h | h)
      · exact h.isInfix
      · exact h.trans (List.suffix_cons c s).isInfix
    · intro h
      rcases List.infix_cons_iff.1 h with h1 | h1
      · exact Or.inl h1
      · exact Or.inr h1

theorem Contains_filePath (dataPath id : String) : Contains (filePath dataPath id) id = true := by
  unfold Contains
  rw [containsChars_iff]
  refine ⟨(dataPath ++ "/").data, (".json" : String).data, ?_⟩
  simp [filePath, String.data_append]

/-! ## DeleteProducts and CleanupDataDir -/

/-- C4, amended: in a state that lists every file under its resolved path and
in which the listing of the data directory succeeds, for a list of ids each of which
has its record file listed under the path `<dataPath>/<id>.json`, when no listed path
contains two entries of the list of ids and none of the files to remove is
write-protected, `DeleteProducts` answers 202 and removes exactly the listed record
files whose path contains one of the ids as a substring; every other file, the
directories and the write protection are unchanged. When the list of ids is not empty,
`GetProducts` on the same ids then answers 400 and names the first id. -/
theorem delete_removes_matching (J : JSON) (dataPath : String) (fs : FS)
    (ids walked : List String) (hwf : fs.WF) (hcanon : fs.Canonical)
    (hwalk : Walk fs dataPath = .ok walked)
    (hfiles : ∀ id ∈ ids, filePath dataPath id ∈ walked)
    (hsingle : NoDoubleMatch walked ids)
    (hrm : ∀ path ∈ walked, (ids.any fun i => Contains path i) = true → path ∉ fs.readOnly) :
    DeleteProducts dataPath fs ids =
      ({ fs with files := fs.files.filter fun e =>
          ! (decide (e.1 ∈ walked) && ids.any fun i => Contains e.1 i) },
        ⟨StatusAccepted, .null⟩) ∧
    (∀ id rest, ids = id :: rest →
      GetProducts J dataPath (DeleteProducts dataPath fs ids).1 ids =
        ⟨StatusBadRequest, .text ("unable to read file: " ++ id ++ ".json")⟩) := by
  have hdel : DeleteProducts dataPath fs ids =
      ({ fs with files := fs.files.filter fun e =>
          ! (decide (e.1 ∈ walked) && ids.any fun i => Contains e.1 i) },
        ⟨StatusAccepted, .null⟩) := by
    by_cases hlen : ids.length < 1
    · have hnil : ids = [] := List.length_eq_zero.1 (by omega)
      subst hnil
      simp [DeleteProducts]
    · have hloop := deleteLoop_ok walked (Walk_nodup fs hwf dataPath walked hwalk) ids fs
        hsingle fun path hp hany =>
          ⟨Walk_mem fs dataPath walked hwalk path hp, hrm path hp hany⟩
      simp only [DeleteProducts, hlen, if_false, hwalk, hloop]
  refine ⟨hdel, ?_⟩
  intro id rest hids
  have hw : filePath dataPath id ∈ walked := hfiles id (by simp [hids])
  have hres : resolve fs.dirs (filePath dataPath id) = .ok (filePath dataPath id) :=
    hcanon _ (Walk_mem fs dataPath walked hwalk _ hw)
  rw [hdel, hids]
  apply GetProducts_missing J dataPath _ [] rest id (by simp)
  simp only [ReadFile, hres, Option.map_eq_none', find_none_iff]
  intro hmem
  obtain ⟨e, he, hfst⟩ := List.mem_map.1 hmem
  obtain ⟨_, he2⟩ := List.mem_filter.1 he
  have hc : Contains e.1 id = true := hfst ▸ Contains_filePath dataPath id
  rw [hfst] at he2
  rw [hfst] at hc
  simp [hw, hc, hids] at he2

/-- Witness of C4, amended: the ids `12` and `3` in the store with the records
`1`, `12` and `3`. -/
theorem delete_removes_matching_witness :
    DeleteProducts "data" prefixStore ["12", "3"] =
      (⟨["data"], [("data/1.json", compactJSON.MarshalIndent (item "1"))], []⟩,
        ⟨StatusAccepted, .null⟩) ∧
    GetProducts compactJSON "data" (DeleteProducts "data" prefixStore ["12", "3"]).1 ["12", "3"] =
      ⟨StatusBadRequest, .text "unable to read file: 12.json"⟩ :=
  have h := delete_removes_matching compactJSON "data" prefixStore ["12", "3"]
    ["data/1.json", "data/12.json", "data/3.json"] (by decide) (by decide) (by decide) (by decide)
    (by decide) (by decide)
  ⟨h.1.trans (by decide), h.2 "12" ["3"] rfl⟩

set_option maxRecDepth 100000 in
/-- C4 fails as stated. For the empty list of ids `DeleteProducts` succeeds and
the `GetProducts` that follows succeeds too, with an empty result. The id `../data/100`
has the record file `data/100.json`, whose listed path does not contain the id:
`DeleteProducts` removes nothing and the `GetProducts` that follows finds the record.
And the ids `12`, `1` and `3` each have a record file: the file of `12` is removed for
the id `12`; for the id `1` the file of `1` is removed and then the removal of the file
of `12`, whose path contains `1` and which is still in the listing, fails.
`DeleteProducts` answers 400, and the file of `3` is still there. -/
theorem delete_removes_matching_counterexample :
    (DeleteProducts "data" prefixStore [] = (prefixStore, ⟨StatusAccepted, .null⟩) ∧
      GetProducts compactJSON "data" prefixStore [] = ⟨StatusAccepted, .products []⟩) ∧
    (ReadFile threeStore (filePath "data" "../data/100") ≠ none ∧
      DeleteProducts "data" threeStore ["../data/100"] =
        (threeStore, ⟨StatusAccepted, .null⟩) ∧
      GetProducts compactJSON "data" threeStore ["../data/100"] =
        ⟨StatusAccepted, .products [item "100"]⟩) ∧
    (∀ id ∈ ["12", "1", "3"], ReadFile prefixStore (filePath "data" id) ≠ none) ∧
    DeleteProducts "data" prefixStore ["12", "1", "3"] =
      (⟨["data"], [("data/3.json", compactJSON.MarshalIndent (item "3"))], []⟩,
        ⟨StatusBadRequest, .text "remove data/12.json: no such file or directory"⟩) := by
  decide

/-- C9: when no path is listed twice and no record file of the data directory
is write-protected, so that every removal succeeds, the listing of the record files
under the data directory is empty after `CleanupDataDir`; when the listing succeeds the
handler answers 202 and removes exactly the listed files. -/
theorem cleanup_leaves_no_record_file (dataPath : String) (fs : FS) (hwf : fs.WF)
    (hrm : ∀ path ∈ recordFiles fs dataPath, path ∉ fs.readOnly) :
    recordFiles (CleanupDataDir dataPath fs).1 dataPath = [] ∧
    (∀ walked, Walk fs dataPath = .ok walked →
      CleanupDataDir dataPath fs =
        ({ fs with files := fs.files.filter fun e => ! decide (e.1 ∈ walked) },
          ⟨StatusAccepted, .null⟩)) := by
  cases hwalk : Walk fs dataPath with
  | error err =>
    refine ⟨?_, fun walked h => by simp at h⟩
    simp [CleanupDataDir, hwalk, recordFiles]
  | ok walked =>
    have hall := removeAll_ok walked fs (Walk_nodup fs hwf dataPath walked hwalk) fun path hp =>
      ⟨Walk_mem fs dataPath walked hwalk path hp,
        hrm path (by simpa [recordFiles, hwalk] using hp)⟩
    have hclean : CleanupDataDir dataPath fs =
        ({ fs with files := fs.files.filter fun e => ! decide (e.1 ∈ walked) },
          ⟨StatusAccepted, .null⟩) := by
      simp only [CleanupDataDir, hwalk, hall]
    refine ⟨?_, fun w hw => by
      simp only [Except.ok.injEq] at hw
      subst hw
      exact hclean⟩
    rw [hclean]
    obtain ⟨P, hP, hafter⟩ := Walk_filter fs dataPath walked hwalk
    have hl := hafter { fs with files := fs.files.filter fun e => ! decide (e.1 ∈ walked) } rfl
    simp only [recordFiles, hl]
    rw [List.eq_nil_iff_forall_not_mem]
    intro path hp
    obtain ⟨hm, hPp⟩ := List.mem_filter.1 hp
    obtain ⟨e, he, hfst⟩ := List.mem_map.1 hm
    obtain ⟨he1, he2⟩ := List.mem_filter.1 he
    have hw : e.1 ∈ walked := by
      rw [hP, hfst]
      exact List.mem_filter.2 ⟨hfst ▸ List.mem_map.2 ⟨e, he1, rfl⟩, hPp⟩
    simp [hw] at he2

/-- Witness of C9: the store with the records `1`, `12` and `3` is emptied. -/
theorem cleanup_leaves_no_record_file_witness :
    recordFiles prefixStore "data" = ["data/1.json", "data/12.json", "data/3.json"] ∧
    recordFiles (CleanupDataDir "data" prefixStore).1 "data" = [] :=
  ⟨by decide, (cleanup_leaves_no_record_file "data" prefixStore (by decide) (by decide)).1⟩

/-! ## Invariants of the store

The handlers keep the state in which every file is listed under its resolved path and
holds the marshalled text of a record: `PutProducts` writes nothing else, and the other
handlers only remove files. -/

theorem WriteFile_holdsRecords (J : JSON) (fs fs1 : FS) (name : String) (p : Product)
    (hfs : HoldsRecords J fs) (h : WriteFile fs name (J.MarshalIndent p) = .ok fs1) :
    HoldsRecords J fs1 := by
  obtain ⟨key, _, _, hmem, _⟩ := WriteFile_ok fs fs1 name _ h
  intro e he
  rcases hmem e he with h1 | h1
  · exact hfs e h1
  · exact ⟨p, by rw [h1]⟩

theorem WriteFile_key (fs fs1 : FS) (name data : String)
    (h : WriteFile fs name data = .ok fs1) :
    ∃ pieces, resolvePieces fs.dirs name = .ok pieces ∧ pieces ≠ [] := by
  unfold WriteFile at h
  cases hr : resolvePieces fs.dirs name with
  | error dir => simp [hr] at h
  | ok pieces =>
    simp only [hr] at h
    refine ⟨pieces, rfl, ?_⟩
    intro hnil
    simp [hnil] at h

theorem WriteFile_canonical (fs fs1 : FS) (name data : String) (hfs : fs.Canonical)
    (h : WriteFile fs name data = .ok fs1) : fs1.Canonical := by
  obtain ⟨key, hkey, hdirs, hmem, _⟩ := WriteFile_ok fs fs1 name data h
  obtain ⟨pieces, hpieces, hne⟩ := WriteFile_key fs fs1 name data h
  have hself := resolve_joinPath fs.dirs name pieces hpieces hne
  have hk : key = joinPath (isRooted name) pieces := by
    simp only [resolve, hpieces, Except.ok.injEq] at hkey
    exact hkey.symm
  intro path hp
  obtain ⟨e, he, hfst⟩ := List.mem_map.1 hp
  rw [hdirs]
  rcases hmem e he with h1 | h1
  · exact hfs path (List.mem_map.2 ⟨e, h1, hfst⟩)
  · rw [← hfst, h1, hk]
    exact hself

theorem putLoop_invariant (J : JSON) (dataPath : String) (now : Nat → Int)
    (batch : List Product) :
    ∀ (k : Nat) (fs : FS) (done : List Product), HoldsRecords J fs ∧ fs.Canonical →
      HoldsRecords J (putLoop J dataPath now batch k fs done).1 ∧
        (putLoop J dataPath now batch k fs done).1.Canonical := by
  induction batch with
  | nil => intro k fs done h; exact h
  | cons p batch ih =>
    intro k fs done h
    simp only [putLoop]
    split
    · exact h
    · rename_i fs1 hw
      exact ih _ _ _ ⟨WriteFile_holdsRecords J fs fs1 _ _ h.1 hw,
        WriteFile_canonical fs fs1 _ _ h.2 hw⟩

theorem PutProducts_invariant (J : JSON) (dataPath : String) (now : Nat → Int) (fs : FS)
    (products : List Product) (h : HoldsRecords J fs ∧ fs.Canonical) :
    HoldsRecords J (PutProducts J dataPath now fs products).1 ∧
      (PutProducts J dataPath now fs products).1.Canonical := by
  unfold PutProducts
  split
  · exact h
  · have := putLoop_invariant J dataPath now products 0 fs [] h
    split <;> rename_i heq <;> rw [heq] at this <;> exact this

theorem Remove_frame (fs fs1 : FS) (name : String) (h : Remove fs name = .ok fs1) :
    fs1.files.Sublist fs.files ∧ fs1.dirs = fs.dirs := by
  unfold Remove at h
  split at h
  · simp at h
  · split at h
    · simp at h
    · simp only [Except.ok.injEq] at h
      subst h
      exact ⟨List.filter_sublist _, rfl⟩

theorem removeMatching_frame (id : String) (files : List String) :
    ∀ fs : FS, (removeMatching id files fs).1.files.Sublist fs.files ∧
      (removeMatching id files fs).1.dirs = fs.dirs := by
  induction files with
  | nil => intro fs; exact ⟨List.Sublist.refl _, rfl⟩
  | cons file files ih =>
    intro fs
    simp only [removeMatching]
    split
    · split
      · exact ⟨List.Sublist.refl _, rfl⟩
      · rename_i fs1 hr
        have h1 := Remove_frame fs fs1 file hr
        exact ⟨(ih fs1).1.trans h1.1, (ih fs1).2.trans h1.2⟩
    · exact ih fs

theorem deleteLoop_frame (files ids : List String) :
    ∀ fs : FS, (deleteLoop files ids fs).1.files.Sublist fs.files ∧
      (deleteLoop files ids fs).1.dirs = fs.dirs := by
  induction ids with
  | nil => intro fs; exact ⟨List.Sublist.refl _, rfl⟩
  | cons id ids ih =>
    intro fs
    have h1 := removeMatching_frame id files fs
    simp only [deleteLoop]
    split
    · rename_i fs1 err heq
      rw [heq] at h1
      exact h1
    · rename_i fs1 heq
      rw [heq] at h1
      exact ⟨(ih fs1).1.trans h1.1, (ih fs1).2.trans h1.2⟩

theorem removeAll_frame (files : List String) :
    ∀ fs : FS, (removeAll files fs).1.files.Sublist fs.files ∧
      (removeAll files fs).1.dirs = fs.dirs := by
  induction files with
  | nil => intro fs; exact ⟨List.Sublist.refl _, rfl⟩
  | cons file files ih =>
    intro fs
    simp only [removeAll]
    split
    · exact ⟨List.Sublist.refl _, rfl⟩
    · rename_i fs1 hr
      have h1 := Remove_frame fs fs1 file hr
      exact ⟨(ih fs1).1.trans h1.1, (ih fs1).2.trans h1.2⟩

theorem invariant_of_frame (J : JSON) (fs fs1 : FS)
    (hframe : fs1.files.Sublist fs.files ∧ fs1.dirs = fs.dirs)
    (h : HoldsRecords J fs ∧ fs.Canonical) : HoldsRecords J fs1 ∧ fs1.Canonical := by
  refine ⟨fun e he => h.1 e (hframe.1.subset he), ?_⟩
  intro path hp
  rw [hframe.2]
  exact h.2 path ((hframe.1.map Prod.fst).subset hp)

theorem DeleteProducts_invariant (J : JSON) (dataPath : String) (fs : FS) (ids : List String)
    (h : HoldsRecords J fs ∧ fs.Canonical) :
    HoldsRecords J (DeleteProducts dataPath fs ids).1 ∧
      (DeleteProducts dataPath fs ids).1.Canonical := by
  apply invariant_of_frame J fs _ _ h
  unfold DeleteProducts
  split
  · exact ⟨List.Sublist.refl _, rfl⟩
  · split
    · exact ⟨List.Sublist.refl _, rfl⟩
    · rename_i files _
      have := deleteLoop_frame files ids fs
      split <;> rename_i heq <;> rw [heq] at this <;> exact this

theorem CleanupDataDir_invariant (J : JSON) (dataPath : String) (fs : FS)
    (h : HoldsRecords J fs ∧ fs.Canonical) :
    HoldsRecords J (CleanupDataDir dataPath fs).1 ∧
      (CleanupDataDir dataPath fs).1.Canonical := by
  apply invariant_of_frame J fs _ _ h
  unfold CleanupDataDir
  split
  · exact ⟨List.Sublist.refl _, rfl⟩
  · rename_i files _
    have := removeAll_frame files fs
    split <;> rename_i heq <;> rw [heq] at this <;> exact this

end DemoStore
